import Mathlib

/-!
Verification development for the VoiceChat repository (`src/Public/app.js`,
which contains both the browser client and the embedded `server.js`).

The server keeps a `rooms` JS `Map` from room name to a `Map` from socket id
to a user record, a per-connection `currentRoom` closure variable, and uses
socket.io channels (`socket.join` / `socket.leave`, `io.to`, `socket.to`,
`io.emit`) for fan-out.  JS `Map`s are modelled as insertion-ordered
association lists with the exact `get` / `set` / `delete` semantics
(set replaces in place when the key exists, appends otherwise).

The client side models `calculateEnergy`, `detectVoiceActivity`,
`processAudio`, `startVoiceChat`, the `socket.on('voice')` playback handler
and `playNextAudio` over the same state the JS keeps in module-level
variables.
-/

namespace VoiceChat

/-! ## JS `Map` model: insertion-ordered association lists -/

/-- `Map.get(k)`, returning `none` for `undefined`. -/
def mget? {α β : Type} [DecidableEq α] : List (α × β) → α → Option β
  | [], _ => none
  | p :: rest, k => if p.1 = k then some p.2 else mget? rest k

/-- `Map.set(k, v)`: replaces in place when the key exists, appends otherwise. -/
def mset {α β : Type} [DecidableEq α] : List (α × β) → α → β → List (α × β)
  | [], k, v => [(k, v)]
  | p :: rest, k, v => if p.1 = k then (k, v) :: rest else p :: mset rest k v

/-- `Map.delete(k)`. -/
def mdel {α β : Type} [DecidableEq α] : List (α × β) → α → List (α × β)
  | [], _ => []
  | p :: rest, k => if p.1 = k then mdel rest k else p :: mdel rest k

/-- `Array.from(map.keys())`. -/
def mkeys {α β : Type} (m : List (α × β)) : List α := m.map (·.1)

/-- `Map.has(k)`. -/
def mhas {α β : Type} [DecidableEq α] (m : List (α × β)) (k : α) : Bool :=
  (mget? m k).isSome

/-! ## Lemmas about the `Map` model -/

theorem mget?_mset_self {α β : Type} [DecidableEq α] (m : List (α × β)) (k : α) (v : β) :
    mget? (mset m k v) k = some v := by
  induction m with
  | nil => simp [mset, mget?]
  | cons p rest ih =>
    by_cases h : p.1 = k
    · simp [mset, h, mget?]
    · simp [mset, h, mget?, ih]

theorem mget?_mset_ne {α β : Type} [DecidableEq α] (m : List (α × β)) (k k' : α) (v : β)
    (h : k' ≠ k) : mget? (mset m k v) k' = mget? m k' := by
  have hk : ¬(k = k') := fun hh => h hh.symm
  induction m with
  | nil => simp [mset, mget?, hk]
  | cons p rest ih =>
    by_cases hp : p.1 = k
    · simp [mset, mget?, hp, hk]
    · simp [mset, mget?, hp, ih]

theorem mget?_mdel_self {α β : Type} [DecidableEq α] (m : List (α × β)) (k : α) :
    mget? (mdel m k) k = none := by
  induction m with
  | nil => simp [mdel, mget?]
  | cons p rest ih =>
    by_cases h : p.1 = k
    · simp [mdel, h, ih]
    · simp [mdel, h, mget?, ih]

theorem mget?_mdel_ne {α β : Type} [DecidableEq α] (m : List (α × β)) (k k' : α)
    (h : k' ≠ k) : mget? (mdel m k) k' = mget? m k' := by
  induction m with
  | nil => simp [mdel]
  | cons p rest ih =>
    have hk : ¬(k = k') := fun hh => h hh.symm
    by_cases hp : p.1 = k
    · simp [mdel, hp, mget?, hk, ih]
    · simp [mdel, hp, mget?, ih]

theorem mget?_mem {α β : Type} [DecidableEq α] {m : List (α × β)} {k : α} {v : β}
    (h : mget? m k = some v) : (k, v) ∈ m := by
  induction m with
  | nil => simp [mget?] at h
  | cons p rest ih =>
    rcases p with ⟨a, b⟩
    by_cases hp : a = k
    · subst hp
      simp [mget?] at h
      subst h
      exact List.mem_cons_self _ _
    · simp [mget?, hp] at h
      exact List.mem_cons_of_mem _ (ih h)

theorem mget?_eq_none_iff {α β : Type} [DecidableEq α] (m : List (α × β)) (k : α) :
    mget? m k = none ↔ k ∉ mkeys m := by
  induction m with
  | nil => simp [mget?, mkeys]
  | cons p rest ih =>
    rcases p with ⟨a, b⟩
    by_cases hp : a = k
    · subst hp
      simp [mget?, mkeys]
    · have hk : ¬(k = a) := fun hh => hp hh.symm
      simp [mget?, mkeys, hp, hk] at ih ⊢
      exact ih

theorem mem_mkeys_of_mget? {α β : Type} [DecidableEq α] {m : List (α × β)} {k : α} {v : β}
    (h : mget? m k = some v) : k ∈ mkeys m := by
  by_contra hk
  rw [← mget?_eq_none_iff] at hk
  rw [h] at hk
  cases hk

theorem mem_mset {α β : Type} [DecidableEq α] {m : List (α × β)} {k : α} {v : β}
    {p : α × β} (h : p ∈ mset m k v) : p ∈ m ∨ p = (k, v) := by
  induction m with
  | nil => simp [mset] at h; right; exact h
  | cons q rest ih =>
    by_cases hq : q.1 = k
    · simp only [mset, hq, if_pos] at h
      rcases List.mem_cons.mp h with h | h
      · right; exact h
      · left; exact List.mem_cons_of_mem _ h
    · simp only [mset, hq, if_neg, not_false_iff] at h
      rcases List.mem_cons.mp h with h | h
      · left; exact h ▸ List.mem_cons_self _ _
      · rcases ih h with h | h
        · left; exact List.mem_cons_of_mem _ h
        · right; exact h

theorem mem_mdel {α β : Type} [DecidableEq α] (m : List (α × β)) (k : α) (p : α × β) :
    p ∈ mdel m k ↔ p ∈ m ∧ p.1 ≠ k := by
  induction m with
  | nil => simp [mdel]
  | cons q rest ih =>
    by_cases hq : q.1 = k
    · simp only [mdel, hq, if_pos, ih, List.mem_cons]
      constructor
      · rintro ⟨h1, h2⟩; exact ⟨Or.inr h1, h2⟩
      · rintro ⟨h1 | h1, h2⟩
        · exact absurd (h1 ▸ hq) h2
        · exact ⟨h1, h2⟩
    · simp only [mdel, hq, if_neg, not_false_iff, List.mem_cons, ih]
      constructor
      · rintro (h | ⟨h1, h2⟩)
        · exact ⟨Or.inl h, h ▸ hq⟩
        · exact ⟨Or.inr h1, h2⟩
      · rintro ⟨h | h1, h2⟩
        · exact Or.inl h
        · exact Or.inr ⟨h1, h2⟩

theorem mem_mkeys_mset {α β : Type} [DecidableEq α] (m : List (α × β)) (k : α) (v : β)
    (x : α) : x ∈ mkeys (mset m k v) ↔ x ∈ mkeys m ∨ x = k := by
  induction m with
  | nil => simp [mset, mkeys]
  | cons p rest ih =>
    rcases p with ⟨a, b⟩
    by_cases hp : a = k
    · subst hp
      simp [mset, mkeys]
      tauto
    · simp [mset, mkeys, hp] at ih ⊢
      tauto

theorem mem_mkeys_mdel {α β : Type} [DecidableEq α] (m : List (α × β)) (k : α) (x : α) :
    x ∈ mkeys (mdel m k) ↔ x ∈ mkeys m ∧ x ≠ k := by
  simp only [mkeys, List.mem_map]
  constructor
  · rintro ⟨p, hp, rfl⟩
    rcases (mem_mdel m k p).mp hp with ⟨h1, h2⟩
    exact ⟨⟨p, h1, rfl⟩, h2⟩
  · rintro ⟨⟨p, hp, rfl⟩, h2⟩
    exact ⟨p, (mem_mdel m k p).mpr ⟨hp, h2⟩, rfl⟩

theorem nodup_mkeys_mset {α β : Type} [DecidableEq α] (m : List (α × β)) (k : α) (v : β)
    (h : (mkeys m).Nodup) : (mkeys (mset m k v)).Nodup := by
  induction m with
  | nil => simp [mset, mkeys]
  | cons p rest ih =>
    rcases p with ⟨a, b⟩
    simp only [mkeys, List.map_cons, List.nodup_cons] at h
    by_cases hp : a = k
    · subst hp
      simp only [mset, if_pos, mkeys, List.map_cons, List.nodup_cons]
      exact ⟨h.1, h.2⟩
    · have hstep : mset ((a, b) :: rest) k v = (a, b) :: mset rest k v := by
        simp [mset, hp]
      rw [hstep]
      simp only [mkeys, List.map_cons, List.nodup_cons]
      refine ⟨?_, ih h.2⟩
      intro hmem
      rcases (mem_mkeys_mset rest k v a).mp hmem with h1 | h1
      · exact h.1 h1
      · exact hp h1

theorem nodup_mkeys_mdel {α β : Type} [DecidableEq α] (m : List (α × β)) (k : α)
    (h : (mkeys m).Nodup) : (mkeys (mdel m k)).Nodup := by
  induction m with
  | nil => simp [mdel, mkeys]
  | cons p rest ih =>
    rcases p with ⟨a, b⟩
    simp only [mkeys, List.map_cons, List.nodup_cons] at h
    by_cases hp : a = k
    · have hstep : mdel ((a, b) :: rest) k = mdel rest k := by simp [mdel, hp]
      rw [hstep]
      exact ih h.2
    · have hstep : mdel ((a, b) :: rest) k = (a, b) :: mdel rest k := by
        simp [mdel, hp]
      rw [hstep]
      simp only [mkeys, List.map_cons, List.nodup_cons]
      refine ⟨?_, ih h.2⟩
      intro hmem
      exact h.1 ((mem_mkeys_mdel rest k a).mp hmem).1

theorem mget?_map_values {α β γ : Type} [DecidableEq α] (m : List (α × β)) (f : β → γ)
    (k : α) : mget? (m.map (fun p => (p.1, f p.2))) k = (mget? m k).map f := by
  induction m with
  | nil => simp [mget?]
  | cons p rest ih =>
    by_cases hp : p.1 = k
    · simp [mget?, hp]
    · simp [mget?, hp, ih]

theorem mdel_eq_nil_key {α β : Type} [DecidableEq α] {m : List (α × β)} {k : α}
    (h : mdel m k = []) : ∀ p ∈ m, p.1 = k := by
  induction m with
  | nil => intro p hp; cases hp
  | cons q rest ih =>
    intro p hp
    by_cases hq : q.1 = k
    · simp only [mdel, hq, if_pos] at h
      rcases List.mem_cons.mp hp with h1 | h1
      · exact h1 ▸ hq
      · exact ih h p h1
    · simp [mdel, hq] at h

theorem mget?_of_mem_nodup {α β : Type} [DecidableEq α] {m : List (α × β)} {p : α × β}
    (hnd : (mkeys m).Nodup) (h : p ∈ m) : mget? m p.1 = some p.2 := by
  induction m with
  | nil => cases h
  | cons q rest ih =>
    simp only [mkeys, List.map_cons, List.nodup_cons] at hnd
    rcases List.mem_cons.mp h with h1 | h1
    · subst h1
      simp [mget?]
    · have hq : q.1 ≠ p.1 := by
        intro hq
        exact hnd.1 (hq ▸ List.mem_map_of_mem _ h1)
      simp only [mget?, hq, if_neg, not_false_iff]
      exact ih hnd.2 h1

theorem mset_ne_nil {α β : Type} [DecidableEq α] (m : List (α × β)) (k : α) (v : β) :
    mset m k v ≠ [] := by
  cases m with
  | nil => simp [mset]
  | cons p rest =>
    by_cases hp : p.1 = k
    · simp [mset, hp]
    · simp [mset, hp]

theorem mset_mset_self {α β : Type} [DecidableEq α] (m : List (α × β)) (k : α)
    (v v' : β) : mset (mset m k v) k v' = mset m k v' := by
  induction m with
  | nil => simp [mset]
  | cons p rest ih =>
    by_cases hp : p.1 = k
    · simp [mset, hp]
    · simp [mset, hp, ih]

theorem mem_mset_self_nodup {α β : Type} [DecidableEq α] {m : List (α × β)} {k : α}
    {v : β} {p : α × β} (hnd : (mkeys m).Nodup) (h : p ∈ mset m k v) (hk : p.1 = k) :
    p = (k, v) := by
  induction m with
  | nil =>
    simp [mset] at h
    exact h
  | cons q rest ih =>
    simp only [mkeys, List.map_cons, List.nodup_cons] at hnd
    by_cases hq : q.1 = k
    · have hstep : mset (q :: rest) k v = (k, v) :: rest := by simp [mset, hq]
      rw [hstep] at h
      rcases List.mem_cons.mp h with h1 | h1
      · exact h1
      · have hin : p.1 ∈ List.map Prod.fst rest := List.mem_map_of_mem _ h1
        rw [hk, ← hq] at hin
        exact absurd hin hnd.1
    · have hstep : mset (q :: rest) k v = q :: mset rest k v := by simp [mset, hq]
      rw [hstep] at h
      rcases List.mem_cons.mp h with h1 | h1
      · exact absurd (h1 ▸ hk) hq
      · exact ih hnd.2 h1

theorem mem_mset_of_ne {α β : Type} [DecidableEq α] {m : List (α × β)} {k : α} {v : β}
    {p : α × β} (h : p ∈ mset m k v) (hk : p.1 ≠ k) : p ∈ m := by
  rcases mem_mset h with h1 | h1
  · exact h1
  · exact absurd (by rw [h1]) hk

theorem mem_mkeys_iff {α β : Type} (m : List (α × β)) (x : α) :
    x ∈ mkeys m ↔ ∃ p ∈ m, p.1 = x := by
  simp [mkeys]

theorem mkeys_mdel_filter {α β : Type} [DecidableEq α] (m : List (α × β)) (k : α) :
    mkeys (mdel m k) = (mkeys m).filter (fun x => x ≠ k) := by
  induction m with
  | nil => simp [mdel, mkeys]
  | cons p rest ih =>
    by_cases hp : p.1 = k
    · have hstep : mdel (p :: rest) k = mdel rest k := by simp [mdel, hp]
      have h2 : mkeys (p :: rest) = p.1 :: mkeys rest := rfl
      rw [hstep, ih, h2, hp]
      simp
    · have hstep : mdel (p :: rest) k = p :: mdel rest k := by simp [mdel, hp]
      have h1 : mkeys (p :: mdel rest k) = p.1 :: mkeys (mdel rest k) := rfl
      have h2 : mkeys (p :: rest) = p.1 :: mkeys rest := rfl
      rw [hstep, h1, h2, ih]
      simp [hp]

theorem mdel_mset_self {α β : Type} [DecidableEq α] (m : List (α × β)) (k : α) (v : β) :
    mdel (mset m k v) k = mdel m k := by
  induction m with
  | nil => simp [mset, mdel]
  | cons p rest ih =>
    by_cases hp : p.1 = k
    · simp [mset, mdel, hp]
    · simp [mset, mdel, hp, ih]

theorem mkeys_mset_of_isSome {α β : Type} [DecidableEq α] (m : List (α × β)) (k : α)
    (v : β) (h : (mget? m k).isSome) : mkeys (mset m k v) = mkeys m := by
  induction m with
  | nil => simp [mget?] at h
  | cons p rest ih =>
    by_cases hp : p.1 = k
    · have hstep : mset (p :: rest) k v = (k, v) :: rest := by simp [mset, hp]
      have h1 : mkeys ((k, v) :: rest) = k :: mkeys rest := rfl
      have h2 : mkeys (p :: rest) = p.1 :: mkeys rest := rfl
      rw [hstep, h1, h2, hp]
    · have hh : (mget? rest k).isSome = true := by simpa [mget?, hp] using h
      have hstep : mset (p :: rest) k v = p :: mset rest k v := by simp [mset, hp]
      have h1 : mkeys (p :: mset rest k v) = p.1 :: mkeys (mset rest k v) := rfl
      have h2 : mkeys (p :: rest) = p.1 :: mkeys rest := rfl
      rw [hstep, h1, h2, ih hh]

theorem mem_mset_iff {α β : Type} [DecidableEq α] {m : List (α × β)} {k : α} {v : β}
    (hnd : (mkeys m).Nodup) (p : α × β) :
    p ∈ mset m k v ↔ (p ∈ m ∧ p.1 ≠ k) ∨ p = (k, v) := by
  constructor
  · intro h
    by_cases hp : p.1 = k
    · exact Or.inr (mem_mset_self_nodup hnd h hp)
    · exact Or.inl ⟨mem_mset_of_ne h hp, hp⟩
  · rintro (⟨h1, h2⟩ | rfl)
    · -- an entry with a different key survives mset
      clear hnd
      induction m with
      | nil => cases h1
      | cons q rest ih =>
        by_cases hq : q.1 = k
        · have hstep : mset (q :: rest) k v = (k, v) :: rest := by simp [mset, hq]
          rw [hstep]
          rcases List.mem_cons.mp h1 with h3 | h3
          · exact absurd (h3 ▸ hq) h2
          · exact List.mem_cons_of_mem _ h3
        · have hstep : mset (q :: rest) k v = q :: mset rest k v := by simp [mset, hq]
          rw [hstep]
          rcases List.mem_cons.mp h1 with h3 | h3
          · exact h3 ▸ List.mem_cons_self _ _
          · exact List.mem_cons_of_mem _ (ih h3)
    · -- the written entry is always present
      clear hnd
      induction m with
      | nil => simp [mset]
      | cons q rest ih =>
        by_cases hq : q.1 = k
        · have hstep : mset (q :: rest) k v = (k, v) :: rest := by simp [mset, hq]
          rw [hstep]
          exact List.mem_cons_self _ _
        · have hstep : mset (q :: rest) k v = q :: mset rest k v := by simp [mset, hq]
          rw [hstep]
          exact List.mem_cons_of_mem _ ih

theorem mkeys_map_snd {α β γ : Type} (m : List (α × β)) (f : β → γ) :
    mkeys (m.map (fun p => (p.1, f p.2))) = mkeys m := by
  simp [mkeys, List.map_map]

/-! ## Server data model (`server.js`) -/

abbrev SocketId := String
abbrev RoomName := String

/-- The per-user record stored in the registry:
`{ username, isSpeaking: false, energy: 0 }`.  The energy payload is an
opaque number to the server; it is modelled as an integer. -/
structure User where
  username : String
  isSpeaking : Bool
  energy : Int
deriving DecidableEq, Repr

/-- Payloads of server-emitted socket events. -/
inductive SPayload where
  | userJoined (id : SocketId) (username : String)
  | roomUsers (users : List (SocketId × User))
  | updateRooms (names : List RoomName)
  | yourId (id : SocketId)
  | userLeft (id : SocketId)
  | roomLeft
  | voice (id : SocketId) (data : List Int)
  | userSpeaking (id : SocketId) (isSpeaking : Bool) (energy : Int)
deriving DecidableEq, Repr

/-- One delivered message: recipient socket and payload. -/
abbrev Msg := SocketId × SPayload

/-- Global server state.

* `rooms` is the registry `Map` of `server.js`.
* `channels` is the socket.io room membership created by `socket.join` /
  `socket.leave` (the transport's broadcast groups).
* `currentRoomOf` collects each live connection handler's `currentRoom`
  closure variable (no entry = `null`).
* `connected` is the set of currently connected sockets (`io.emit` targets).
-/
structure ServerState where
  rooms : List (RoomName × List (SocketId × User))
  channels : List (RoomName × List SocketId)
  currentRoomOf : List (SocketId × RoomName)
  connected : List SocketId
deriving DecidableEq, Repr

/-- Members of a socket.io channel (empty when the channel does not exist). -/
def channelMembers (st : ServerState) (room : RoomName) : List SocketId :=
  (mget? st.channels room).getD []

/-- Keys of the registry entry for `room` (empty when absent). -/
def roomKeys (st : ServerState) (room : RoomName) : List SocketId :=
  mkeys ((mget? st.rooms room).getD [])

/-- `io.to(room).emit(...)`: delivered to every member of the channel. -/
def ioToRoom (st : ServerState) (room : RoomName) (p : SPayload) : List Msg :=
  (channelMembers st room).map (fun sid => (sid, p))

/-- `socket.to(room).emit(...)`: every channel member except the sender. -/
def socketToRoom (st : ServerState) (sender : SocketId) (room : RoomName)
    (p : SPayload) : List Msg :=
  ((channelMembers st room).filter (fun sid => sid ≠ sender)).map (fun sid => (sid, p))

/-- `io.emit(...)`: delivered to every connected socket. -/
def ioEmit (st : ServerState) (p : SPayload) : List Msg :=
  st.connected.map (fun sid => (sid, p))

/-- `socket.join(room)`. -/
def socketJoin (st : ServerState) (sid : SocketId) (room : RoomName) : ServerState :=
  let ms := channelMembers st room
  { st with channels := mset st.channels room (if sid ∈ ms then ms else ms ++ [sid]) }

/-- `socket.leave(room)`. -/
def socketLeave (st : ServerState) (sid : SocketId) (room : RoomName) : ServerState :=
  match mget? st.channels room with
  | none => st
  | some ms => { st with channels := mset st.channels room (ms.filter (fun x => x ≠ sid)) }

/-- `leaveRoom(socket, room)` from `server.js`:
`socket.leave(room)`; look the room up in the registry (skip everything when
absent); delete the socket's entry; `io.to(room).emit('user left', id)`;
when the room became empty, delete it and `io.emit('update rooms', keys)`. -/
def leaveRoom (st : ServerState) (sid : SocketId) (room : RoomName) :
    ServerState × List Msg :=
  let st1 := socketLeave st sid room
  match mget? st1.rooms room with
  | none => (st1, [])
  | some roomUsers =>
    let roomUsers1 := mdel roomUsers sid
    let st2 := { st1 with rooms := mset st1.rooms room roomUsers1 }
    let msgs1 := ioToRoom st2 room (.userLeft sid)
    if roomUsers1.isEmpty then
      let st3 := { st2 with rooms := mdel st2.rooms room }
      (st3, msgs1 ++ ioEmit st3 (.updateRooms (mkeys st3.rooms)))
    else
      (st2, msgs1)

/-- `joinRoom(socket, room, username)` from `server.js`:
`socket.join(room)`; `currentRoom = room`; create the registry entry when
missing; insert the user record; `io.to(room).emit('user joined', ...)`;
`socket.emit('room users', entries)`; `io.emit('update rooms', keys)`;
`socket.emit('your id', id)`. -/
def joinRoom (st : ServerState) (sid : SocketId) (room : RoomName)
    (username : String) : ServerState × List Msg :=
  let st1 := socketJoin st sid room
  let st2 := { st1 with currentRoomOf := mset st1.currentRoomOf sid room }
  let st3 := if mhas st2.rooms room then st2
             else { st2 with rooms := mset st2.rooms room [] }
  let users1 := mset ((mget? st3.rooms room).getD []) sid ⟨username, false, 0⟩
  let st4 := { st3 with rooms := mset st3.rooms room users1 }
  (st4, ioToRoom st4 room (.userJoined sid username)
        ++ [(sid, .roomUsers users1)]
        ++ ioEmit st4 (.updateRooms (mkeys st4.rooms))
        ++ [(sid, .yourId sid)])

/-- `socket.on('join room')`: leave the current room when bound, then join. -/
def onJoinRoom (st : ServerState) (sid : SocketId) (room : RoomName)
    (username : String) : ServerState × List Msg :=
  match mget? st.currentRoomOf sid with
  | some old =>
    let r1 := leaveRoom st sid old
    let r2 := joinRoom r1.1 sid room username
    (r2.1, r1.2 ++ r2.2)
  | none => joinRoom st sid room username

/-- `socket.on('leave room')`: when bound, `leaveRoom`, set `currentRoom`
to `null`, and `socket.emit('room left')`. -/
def onLeaveRoom (st : ServerState) (sid : SocketId) : ServerState × List Msg :=
  match mget? st.currentRoomOf sid with
  | some room =>
    let r1 := leaveRoom st sid room
    ({ r1.1 with currentRoomOf := mdel r1.1.currentRoomOf sid },
     r1.2 ++ [(sid, .roomLeft)])
  | none => (st, [])

/-- `socket.on('voice')`: when bound,
`socket.to(currentRoom).emit('voice', { id, data })`; otherwise nothing. -/
def onVoice (st : ServerState) (sid : SocketId) (data : List Int) :
    ServerState × List Msg :=
  match mget? st.currentRoomOf sid with
  | some room => (st, socketToRoom st sid room (.voice sid data))
  | none => (st, [])

/-- `socket.on('speaking')`: guarded by
`currentRoom && rooms.get(currentRoom).has(socket.id)`.  When `currentRoom`
is set but absent from the registry, `rooms.get(currentRoom)` is `undefined`
and `.has` raises a `TypeError`, modelled as `none`.  On success the stored
user record is updated in place and
`io.to(currentRoom).emit('user speaking', ...)` fires. -/
def onSpeaking (st : ServerState) (sid : SocketId) (isSp : Bool) (energy : Int) :
    Option (ServerState × List Msg) :=
  match mget? st.currentRoomOf sid with
  | none => some (st, [])
  | some room =>
    match mget? st.rooms room with
    | none => none
    | some users =>
      match mget? users sid with
      | none => some (st, [])
      | some u =>
        let users1 := mset users sid { u with isSpeaking := isSp, energy := energy }
        let st1 := { st with rooms := mset st.rooms room users1 }
        some (st1, ioToRoom st1 room (.userSpeaking sid isSp energy))

/-- `socket.on('disconnect')`: the transport has already removed the socket
from every socket.io channel and from the connected set when the handler
runs; the handler then calls `leaveRoom` when bound.  The final `mdel` on
`currentRoomOf` models the destruction of the per-connection closure. -/
def onDisconnect (st : ServerState) (sid : SocketId) : ServerState × List Msg :=
  let st1 := { st with
    connected := st.connected.filter (fun x => x ≠ sid),
    channels := st.channels.map (fun p => (p.1, p.2.filter (fun x => x ≠ sid))) }
  let r1 := match mget? st1.currentRoomOf sid with
    | some room => leaveRoom st1 sid room
    | none => (st1, [])
  ({ r1.1 with currentRoomOf := mdel r1.1.currentRoomOf sid }, r1.2)

/-- Connection-level events the server reacts to. -/
inductive SEvent where
  | connect (sid : SocketId)
  | joinRm (sid : SocketId) (room : RoomName) (username : String)
  | leaveRm (sid : SocketId)
  | voice (sid : SocketId) (data : List Int)
  | speaking (sid : SocketId) (isSp : Bool) (energy : Int)
  | disconnect (sid : SocketId)
deriving DecidableEq, Repr

/-- One server step.  Events carry the socket they originate from; an event
from a socket that is not connected cannot occur (`none`), a fresh
connection must use an unused id, and a `TypeError` in a handler is also
`none`. -/
def step (st : ServerState) : SEvent → Option (ServerState × List Msg)
  | .connect sid =>
      if sid ∈ st.connected then none
      else some ({ st with connected := st.connected ++ [sid] }, [])
  | .joinRm sid room username =>
      if sid ∈ st.connected then some (onJoinRoom st sid room username) else none
  | .leaveRm sid =>
      if sid ∈ st.connected then some (onLeaveRoom st sid) else none
  | .voice sid data =>
      if sid ∈ st.connected then some (onVoice st sid data) else none
  | .speaking sid isSp energy =>
      if sid ∈ st.connected then onSpeaking st sid isSp energy else none
  | .disconnect sid =>
      if sid ∈ st.connected then some (onDisconnect st sid) else none

/-- The server's initial state: no rooms, no channels, no connections. -/
def initState : ServerState := ⟨[], [], [], []⟩

/-- States the server can be in after some sequence of events. -/
inductive Reachable : ServerState → Prop where
  | init : Reachable initState
  | next {st : ServerState} {e : SEvent} {st' : ServerState} {msgs : List Msg} :
      Reachable st → step st e = some (st', msgs) → Reachable st'

/-! ## Structural equations for the server operations -/

theorem socketLeave_rooms (st : ServerState) (sid : SocketId) (room : RoomName) :
    (socketLeave st sid room).rooms = st.rooms := by
  unfold socketLeave
  cases mget? st.channels room <;> rfl

theorem socketLeave_bound (st : ServerState) (sid : SocketId) (room : RoomName) :
    (socketLeave st sid room).currentRoomOf = st.currentRoomOf := by
  unfold socketLeave
  cases mget? st.channels room <;> rfl

theorem socketLeave_conn (st : ServerState) (sid : SocketId) (room : RoomName) :
    (socketLeave st sid room).connected = st.connected := by
  unfold socketLeave
  cases mget? st.channels room <;> rfl

theorem socketLeave_members_self (st : ServerState) (sid : SocketId) (room : RoomName) :
    channelMembers (socketLeave st sid room) room =
      (channelMembers st room).filter (fun x => x ≠ sid) := by
  unfold socketLeave channelMembers
  cases hc : mget? st.channels room with
  | none => simp [hc]
  | some ms => simp [hc, mget?_mset_self]

theorem socketLeave_members_ne (st : ServerState) (sid : SocketId) (room r' : RoomName)
    (h : r' ≠ room) :
    channelMembers (socketLeave st sid room) r' = channelMembers st r' := by
  unfold socketLeave channelMembers
  cases hc : mget? st.channels room with
  | none => rfl
  | some ms => simp [mget?_mset_ne _ _ _ _ h]

theorem socketJoin_rooms (st : ServerState) (sid : SocketId) (room : RoomName) :
    (socketJoin st sid room).rooms = st.rooms := rfl

theorem socketJoin_bound (st : ServerState) (sid : SocketId) (room : RoomName) :
    (socketJoin st sid room).currentRoomOf = st.currentRoomOf := rfl

theorem socketJoin_conn (st : ServerState) (sid : SocketId) (room : RoomName) :
    (socketJoin st sid room).connected = st.connected := rfl

theorem socketJoin_members_self (st : ServerState) (sid : SocketId) (room : RoomName) :
    channelMembers (socketJoin st sid room) room =
      (if sid ∈ channelMembers st room then channelMembers st room
       else channelMembers st room ++ [sid]) := by
  unfold socketJoin channelMembers
  simp [mget?_mset_self]

theorem socketJoin_members_ne (st : ServerState) (sid : SocketId) (room r' : RoomName)
    (h : r' ≠ room) :
    channelMembers (socketJoin st sid room) r' = channelMembers st r' := by
  unfold socketJoin channelMembers
  simp [mget?_mset_ne _ _ _ _ h]

theorem sid_mem_socketJoin_members (st : ServerState) (sid : SocketId) (room : RoomName) :
    sid ∈ channelMembers (socketJoin st sid room) room := by
  rw [socketJoin_members_self]
  by_cases h : sid ∈ channelMembers st room <;> simp [h]

/-- `leaveRoom` never touches the bindings. -/
theorem leaveRoom_bound (st : ServerState) (sid : SocketId) (room : RoomName) :
    (leaveRoom st sid room).1.currentRoomOf = st.currentRoomOf := by
  have hsc := socketLeave_bound st sid room
  unfold leaveRoom
  simp only [socketLeave_rooms]
  cases hr : mget? st.rooms room with
  | none => simpa using hsc
  | some users =>
    by_cases he : (mdel users sid).isEmpty <;> simp [he, hsc]

/-- `leaveRoom` never touches the connected set. -/
theorem leaveRoom_conn (st : ServerState) (sid : SocketId) (room : RoomName) :
    (leaveRoom st sid room).1.connected = st.connected := by
  have hsc := socketLeave_conn st sid room
  unfold leaveRoom
  simp only [socketLeave_rooms]
  cases hr : mget? st.rooms room with
  | none => simpa using hsc
  | some users =>
    by_cases he : (mdel users sid).isEmpty <;> simp [he, hsc]

/-- `leaveRoom` changes the channels exactly as `socket.leave`. -/
theorem leaveRoom_channels (st : ServerState) (sid : SocketId) (room : RoomName) :
    (leaveRoom st sid room).1.channels = (socketLeave st sid room).channels := by
  unfold leaveRoom
  simp only [socketLeave_rooms]
  cases hr : mget? st.rooms room with
  | none => simp
  | some users =>
    by_cases he : (mdel users sid).isEmpty <;> simp [he]

/-- Registry contents after `leaveRoom`. -/
theorem leaveRoom_rooms (st : ServerState) (sid : SocketId) (room : RoomName) :
    (leaveRoom st sid room).1.rooms =
      (match mget? st.rooms room with
       | none => st.rooms
       | some users =>
         if (mdel users sid).isEmpty then mdel st.rooms room
         else mset st.rooms room (mdel users sid)) := by
  unfold leaveRoom
  simp only [socketLeave_rooms]
  cases hr : mget? st.rooms room with
  | none => simp [socketLeave_rooms]
  | some users =>
    by_cases he : (mdel users sid).isEmpty <;>
      simp [he, socketLeave_rooms, mdel_mset_self]

/-- Messages emitted by `leaveRoom`. -/
theorem leaveRoom_msgs (st : ServerState) (sid : SocketId) (room : RoomName) :
    (leaveRoom st sid room).2 =
      (match mget? st.rooms room with
       | none => []
       | some users =>
         (channelMembers (socketLeave st sid room) room).map
           (fun x => (x, SPayload.userLeft sid))
         ++ (if (mdel users sid).isEmpty then
               st.connected.map
                 (fun x => (x, SPayload.updateRooms (mkeys (mdel st.rooms room))))
             else [])) := by
  unfold leaveRoom
  simp only [socketLeave_rooms]
  cases hr : mget? st.rooms room with
  | none => simp
  | some users =>
    by_cases he : (mdel users sid).isEmpty <;>
      · unfold ioToRoom ioEmit channelMembers
        simp [he, socketLeave_rooms, socketLeave_conn, mdel_mset_self]

/-- Registry contents after `joinRoom`. -/
theorem joinRoom_rooms (st : ServerState) (sid : SocketId) (room : RoomName)
    (username : String) :
    (joinRoom st sid room username).1.rooms =
      mset st.rooms room
        (mset ((mget? st.rooms room).getD []) sid ⟨username, false, 0⟩) := by
  unfold joinRoom
  by_cases hh : mhas st.rooms room
  · rcases Option.isSome_iff_exists.mp hh with ⟨users, hr⟩
    have hh2 : mhas (socketJoin st sid room).rooms room = true := by
      unfold mhas
      rw [socketJoin_rooms]
      exact hh
    simp [hh, hh2, hr, socketJoin_rooms]
  · have hnone : mget? st.rooms room = none := by
      unfold mhas at hh
      simpa using hh
    have hh2 : mhas (socketJoin st sid room).rooms room = false := by
      unfold mhas
      rw [socketJoin_rooms, hnone]
      rfl
    simp [hh, hh2, hnone, socketJoin_rooms, mget?_mset_self, mset_mset_self]

/-- `joinRoom` changes the channels exactly as `socket.join`. -/
theorem joinRoom_channels (st : ServerState) (sid : SocketId) (room : RoomName)
    (username : String) :
    (joinRoom st sid room username).1.channels = (socketJoin st sid room).channels := by
  unfold joinRoom
  by_cases hh : mhas (socketJoin st sid room).rooms room <;> simp [hh]

/-- `joinRoom` rebinds the socket to the new room. -/
theorem joinRoom_bound (st : ServerState) (sid : SocketId) (room : RoomName)
    (username : String) :
    (joinRoom st sid room username).1.currentRoomOf =
      mset st.currentRoomOf sid room := by
  unfold joinRoom
  by_cases hh : mhas (socketJoin st sid room).rooms room <;>
    simp [hh, socketJoin_bound]

/-- `joinRoom` never touches the connected set. -/
theorem joinRoom_conn (st : ServerState) (sid : SocketId) (room : RoomName)
    (username : String) :
    (joinRoom st sid room username).1.connected = st.connected := by
  unfold joinRoom
  by_cases hh : mhas (socketJoin st sid room).rooms room <;>
    simp [hh, socketJoin_conn]

/-- Messages emitted by `joinRoom`. -/
theorem joinRoom_msgs (st : ServerState) (sid : SocketId) (room : RoomName)
    (username : String) :
    (joinRoom st sid room username).2 =
      (channelMembers (socketJoin st sid room) room).map
        (fun x => (x, SPayload.userJoined sid username))
      ++ [(sid, .roomUsers (mset ((mget? st.rooms room).getD []) sid ⟨username, false, 0⟩))]
      ++ st.connected.map (fun x => (x, SPayload.updateRooms
           (mkeys (mset st.rooms room
             (mset ((mget? st.rooms room).getD []) sid ⟨username, false, 0⟩)))))
      ++ [(sid, .yourId sid)] := by
  unfold joinRoom
  by_cases hh : mhas (socketJoin st sid room).rooms room
  · have hh1 : mhas st.rooms room := by
      unfold mhas at hh ⊢
      rw [socketJoin_rooms] at hh
      exact hh
    rcases Option.isSome_iff_exists.mp hh1 with ⟨users, hr⟩
    unfold ioToRoom ioEmit channelMembers
    simp [hh, hh1, hr, socketJoin_rooms, socketJoin_conn, mget?_mset_self]
  · have hnone : mget? st.rooms room = none := by
      unfold mhas at hh
      rw [socketJoin_rooms] at hh
      simpa using hh
    have hh1 : ¬(mhas st.rooms room = true) := by
      unfold mhas
      rw [hnone]
      simp
    unfold ioToRoom ioEmit channelMembers
    simp [hh, hh1, hnone, socketJoin_rooms, socketJoin_conn, mget?_mset_self,
      mset_mset_self]

theorem mdel_eq_self_of_none {α β : Type} [DecidableEq α] {m : List (α × β)} {k : α}
    (h : mget? m k = none) : mdel m k = m := by
  induction m with
  | nil => rfl
  | cons p rest ih =>
    by_cases hp : p.1 = k
    · simp [mget?, hp] at h
    · simp [mget?, hp] at h
      simp [mdel, hp, ih h]

theorem isEmpty_false_ne_nil {α : Type} {l : List α} (h : l.isEmpty = false) :
    l ≠ [] := by
  intro hl
  subst hl
  simp at h

/-- `leaveRoom` when the registry has no such room: registry untouched,
nothing emitted. -/
theorem leaveRoom_rooms_none {st : ServerState} (sid : SocketId) {room : RoomName}
    (hr : mget? st.rooms room = none) :
    (leaveRoom st sid room).1.rooms = st.rooms ∧ (leaveRoom st sid room).2 = [] := by
  have h1 := leaveRoom_rooms st sid room
  have h2 := leaveRoom_msgs st sid room
  rw [hr] at h1 h2
  exact ⟨h1, h2⟩

/-- `leaveRoom` when the socket was the last member: room deleted,
`user left` then `update rooms` emitted. -/
theorem leaveRoom_rooms_del {st : ServerState} {sid : SocketId} {room : RoomName}
    {users : List (SocketId × User)} (hr : mget? st.rooms room = some users)
    (he : (mdel users sid).isEmpty = true) :
    (leaveRoom st sid room).1.rooms = mdel st.rooms room ∧
    (leaveRoom st sid room).2 =
      (channelMembers (socketLeave st sid room) room).map
        (fun x => (x, SPayload.userLeft sid))
      ++ st.connected.map
           (fun x => (x, SPayload.updateRooms (mkeys (mdel st.rooms room)))) := by
  have h1 := leaveRoom_rooms st sid room
  have h2 := leaveRoom_msgs st sid room
  rw [hr] at h1 h2
  simp only [he, if_pos] at h1 h2
  exact ⟨h1, by rw [h2]⟩

/-- `leaveRoom` when other members remain: entry updated, only `user left`
emitted. -/
theorem leaveRoom_rooms_set {st : ServerState} {sid : SocketId} {room : RoomName}
    {users : List (SocketId × User)} (hr : mget? st.rooms room = some users)
    (he : (mdel users sid).isEmpty = false) :
    (leaveRoom st sid room).1.rooms = mset st.rooms room (mdel users sid) ∧
    (leaveRoom st sid room).2 =
      (channelMembers (socketLeave st sid room) room).map
        (fun x => (x, SPayload.userLeft sid)) := by
  have h1 := leaveRoom_rooms st sid room
  have h2 := leaveRoom_msgs st sid room
  rw [hr] at h1 h2
  simp only [he, Bool.false_eq_true, if_false] at h1 h2
  exact ⟨h1, by rw [h2]; simp⟩

/-- Entries of the registry after `leaveRoom`. -/
theorem leaveRoom_rooms_mem {st : ServerState} {sid : SocketId} {room : RoomName}
    (hnd : (mkeys st.rooms).Nodup) {q : RoomName × List (SocketId × User)}
    (hq : q ∈ (leaveRoom st sid room).1.rooms) :
    (q ∈ st.rooms ∧ q.1 ≠ room) ∨
    ∃ users, mget? st.rooms room = some users ∧ q = (room, mdel users sid) ∧
      (mdel users sid).isEmpty = false := by
  cases hr : mget? st.rooms room with
  | none =>
    rw [(leaveRoom_rooms_none sid hr).1] at hq
    left
    refine ⟨hq, ?_⟩
    intro hqr
    have hmem := mem_mkeys_of_mget? (mget?_of_mem_nodup hnd hq)
    rw [hqr] at hmem
    exact ((mget?_eq_none_iff st.rooms room).mp hr) hmem
  | some users =>
    cases he : (mdel users sid).isEmpty with
    | true =>
      rw [(leaveRoom_rooms_del hr he).1] at hq
      rcases (mem_mdel st.rooms room q).mp hq with ⟨h1, h2⟩
      exact Or.inl ⟨h1, h2⟩
    | false =>
      rw [(leaveRoom_rooms_set hr he).1] at hq
      rcases (mem_mset_iff hnd q).mp hq with ⟨h1, h2⟩ | h1
      · exact Or.inl ⟨h1, h2⟩
      · exact Or.inr ⟨users, rfl, h1, he⟩

/-- Room membership after `leaveRoom`, per key: the socket disappears from
its room, every other room is untouched. -/
theorem leaveRoom_roomKeys (st : ServerState) (sid : SocketId) (room r' : RoomName) :
    roomKeys (leaveRoom st sid room).1 r' =
      if r' = room then (roomKeys st room).filter (fun x => x ≠ sid)
      else roomKeys st r' := by
  cases hr : mget? st.rooms room with
  | none =>
    have h1 := (leaveRoom_rooms_none sid hr).1
    by_cases hx : r' = room
    · subst hx
      rw [if_pos rfl]
      unfold roomKeys
      rw [h1, hr]
      simp [mkeys]
    · rw [if_neg hx]
      unfold roomKeys
      rw [h1]
  | some users =>
    cases he : (mdel users sid).isEmpty with
    | true =>
      have h1 := (leaveRoom_rooms_del hr he).1
      have hnil : mdel users sid = [] := by
        cases hmd : mdel users sid
        · rfl
        · rw [hmd] at he
          simp at he
      by_cases hx : r' = room
      · subst hx
        rw [if_pos rfl]
        unfold roomKeys
        rw [h1, mget?_mdel_self, hr]
        simp only [Option.getD_none, Option.getD_some]
        rw [← mkeys_mdel_filter, hnil]
      · rw [if_neg hx]
        unfold roomKeys
        rw [h1, mget?_mdel_ne _ _ _ hx]
    | false =>
      have h1 := (leaveRoom_rooms_set hr he).1
      by_cases hx : r' = room
      · subst hx
        rw [if_pos rfl]
        unfold roomKeys
        rw [h1, mget?_mset_self, hr]
        simp only [Option.getD_some]
        exact mkeys_mdel_filter users sid
      · rw [if_neg hx]
        unfold roomKeys
        rw [h1, mget?_mset_ne _ _ _ _ hx]

/-- Channel membership after `leaveRoom`, per key. -/
theorem leaveRoom_members (st : ServerState) (sid : SocketId) (room r' : RoomName) :
    channelMembers (leaveRoom st sid room).1 r' =
      if r' = room then (channelMembers st room).filter (fun x => x ≠ sid)
      else channelMembers st r' := by
  have hch : channelMembers (leaveRoom st sid room).1 r'
      = channelMembers (socketLeave st sid room) r' := by
    unfold channelMembers
    rw [leaveRoom_channels]
  by_cases hx : r' = room
  · subst hx
    rw [if_pos rfl, hch, socketLeave_members_self]
  · rw [if_neg hx, hch, socketLeave_members_ne _ _ _ _ hx]

/-- Entries of the channel map after `socket.leave`. -/
theorem socketLeave_channels_mem {st : ServerState} {sid : SocketId} {room : RoomName}
    (hnd : (mkeys st.channels).Nodup) {c : RoomName × List SocketId}
    (hc : c ∈ (socketLeave st sid room).channels) :
    (c ∈ st.channels ∧ c.1 ≠ room) ∨
    ∃ ms, mget? st.channels room = some ms ∧
      c = (room, ms.filter (fun x => x ≠ sid)) := by
  unfold socketLeave at hc
  cases hcc : mget? st.channels room with
  | none =>
    rw [hcc] at hc
    left
    refine ⟨hc, ?_⟩
    intro hcr
    have hmem := mem_mkeys_of_mget? (mget?_of_mem_nodup hnd hc)
    rw [hcr] at hmem
    exact ((mget?_eq_none_iff st.channels room).mp hcc) hmem
  | some ms =>
    rw [hcc] at hc
    rcases (mem_mset_iff hnd c).mp hc with ⟨h1, h2⟩ | h1
    · exact Or.inl ⟨h1, h2⟩
    · exact Or.inr ⟨ms, rfl, h1⟩

/-- Entries of the channel map after `socket.join`. -/
theorem socketJoin_channels_mem {st : ServerState} {sid : SocketId} {room : RoomName}
    (hnd : (mkeys st.channels).Nodup) {c : RoomName × List SocketId}
    (hc : c ∈ (socketJoin st sid room).channels) :
    (c ∈ st.channels ∧ c.1 ≠ room) ∨
    c = (room, if sid ∈ channelMembers st room then channelMembers st room
               else channelMembers st room ++ [sid]) := by
  unfold socketJoin at hc
  rcases (mem_mset_iff hnd c).mp hc with ⟨h1, h2⟩ | h1
  · exact Or.inl ⟨h1, h2⟩
  · exact Or.inr h1

/-- Room membership after `joinRoom`, per key. -/
theorem joinRoom_roomKeys (st : ServerState) (sid : SocketId) (room r' : RoomName)
    (username : String) :
    roomKeys (joinRoom st sid room username).1 r' =
      if r' = room then
        mkeys (mset ((mget? st.rooms room).getD []) sid ⟨username, false, 0⟩)
      else roomKeys st r' := by
  by_cases hx : r' = room
  · subst hx
    rw [if_pos rfl]
    unfold roomKeys
    rw [joinRoom_rooms, mget?_mset_self]
    simp only [Option.getD_some]
  · rw [if_neg hx]
    unfold roomKeys
    rw [joinRoom_rooms, mget?_mset_ne _ _ _ _ hx]

/-- Channel membership after `joinRoom`, per key. -/
theorem joinRoom_members (st : ServerState) (sid : SocketId) (room r' : RoomName)
    (username : String) :
    channelMembers (joinRoom st sid room username).1 r' =
      if r' = room then
        (if sid ∈ channelMembers st room then channelMembers st room
         else channelMembers st room ++ [sid])
      else channelMembers st r' := by
  have hch : channelMembers (joinRoom st sid room username).1 r'
      = channelMembers (socketJoin st sid room) r' := by
    unfold channelMembers
    rw [joinRoom_channels]
  by_cases hx : r' = room
  · subst hx
    rw [if_pos rfl, hch, socketJoin_members_self]
  · rw [if_neg hx, hch, socketJoin_members_ne _ _ _ _ hx]

/-! ## The server invariant

All components a reachable server state satisfies:

* no registry room is empty;
* registry, channel and binding maps have duplicate-free keys;
* a bound socket is a member of its room (`boundMem`), and every registry
  member is bound to exactly that room (`memBound`);
* socket.io channel membership coincides with registry membership
  (`chanIn` and `roomIn`). -/

structure Inv (st : ServerState) : Prop where
  roomsNE : ∀ p ∈ st.rooms, p.2 ≠ []
  roomsND : (mkeys st.rooms).Nodup
  boundND : (mkeys st.currentRoomOf).Nodup
  chansND : (mkeys st.channels).Nodup
  boundMem : ∀ p ∈ st.currentRoomOf, p.1 ∈ roomKeys st p.2
  memBound : ∀ q ∈ st.rooms, ∀ e ∈ q.2, mget? st.currentRoomOf e.1 = some q.1
  chanIn : ∀ c ∈ st.channels, ∀ x ∈ c.2, x ∈ roomKeys st c.1
  roomIn : ∀ q ∈ st.rooms, ∀ e ∈ q.2, e.1 ∈ channelMembers st q.1

theorem Inv.boundMemGet {st : ServerState} (h : Inv st) {sid : SocketId}
    {room : RoomName} (hb : mget? st.currentRoomOf sid = some room) :
    sid ∈ roomKeys st room :=
  h.boundMem (sid, room) (mget?_mem hb)

theorem Inv.memBoundGet {st : ServerState} (h : Inv st) {room : RoomName}
    {users : List (SocketId × User)} (hr : mget? st.rooms room = some users)
    {e : SocketId × User} (he : e ∈ users) :
    mget? st.currentRoomOf e.1 = some room :=
  h.memBound (room, users) (mget?_mem hr) e he

theorem mem_roomKeys_iff (st : ServerState) (room : RoomName) (x : SocketId) :
    x ∈ roomKeys st room ↔
      ∃ users, mget? st.rooms room = some users ∧ x ∈ mkeys users := by
  unfold roomKeys
  cases h : mget? st.rooms room with
  | none => simp [mkeys]
  | some users => simp

/-- Channel membership and registry membership coincide on every invariant
state. -/
theorem Inv.chanEq {st : ServerState} (h : Inv st) (room : RoomName) (x : SocketId) :
    x ∈ channelMembers st room ↔ x ∈ roomKeys st room := by
  constructor
  · intro hx
    unfold channelMembers at hx
    cases hc : mget? st.channels room with
    | none => rw [hc] at hx; cases hx
    | some ms =>
      rw [hc] at hx
      exact h.chanIn (room, ms) (mget?_mem hc) x hx
  · intro hx
    rcases (mem_roomKeys_iff st room x).mp hx with ⟨users, hr, hk⟩
    rcases (mem_mkeys_iff users x).mp hk with ⟨e, he, hex⟩
    exact hex ▸ h.roomIn (room, users) (mget?_mem hr) e he

/-- A socket bound to `room` is a member of no other room. -/
theorem Inv.uniqueRoom {st : ServerState} (h : Inv st) {sid : SocketId}
    {room other : RoomName} (hb : mget? st.currentRoomOf sid = some room)
    (hmem : sid ∈ roomKeys st other) : other = room := by
  rcases (mem_roomKeys_iff st other sid).mp hmem with ⟨users, hr, hk⟩
  rcases (mem_mkeys_iff users sid).mp hk with ⟨e, he, hex⟩
  have := h.memBoundGet hr he
  rw [hex, hb] at this
  exact (Option.some.injEq _ _).mp this.symm

/-- An unbound socket is a member of no room. -/
theorem Inv.unboundFree {st : ServerState} (h : Inv st) {sid : SocketId}
    (hb : mget? st.currentRoomOf sid = none) (room : RoomName) :
    sid ∉ roomKeys st room := by
  intro hmem
  rcases (mem_roomKeys_iff st room sid).mp hmem with ⟨users, hr, hk⟩
  rcases (mem_mkeys_iff users sid).mp hk with ⟨e, he, hex⟩
  have := h.memBoundGet hr he
  rw [hex, hb] at this
  cases this

theorem mem_filter_ne {α : Type} [DecidableEq α] {l : List α} {a b : α} :
    a ∈ l.filter (fun x => x ≠ b) ↔ a ∈ l ∧ a ≠ b := by
  simp

/-- `memBound` alone forces a bound socket to be in no room but its own. -/
theorem uniqueRoom_of_memBound {st : ServerState} {sid : SocketId} {room : RoomName}
    (hmb : ∀ q ∈ st.rooms, ∀ e ∈ q.2, mget? st.currentRoomOf e.1 = some q.1)
    (hb : mget? st.currentRoomOf sid = some room) {r' : RoomName}
    (hmem : sid ∈ roomKeys st r') : r' = room := by
  rcases (mem_roomKeys_iff st r' sid).mp hmem with ⟨users, hr, hk⟩
  rcases (mem_mkeys_iff users sid).mp hk with ⟨e, he, hex⟩
  have h1 := hmb (r', users) (mget?_mem hr) e he
  rw [hex, hb] at h1
  exact (Option.some.injEq _ _).mp h1.symm

/-- The invariant components `leaveRoom` needs of its input state.  On entry
to the `disconnect` handler the transport has already removed the socket
from the channels, so only the weaker `roomInX` holds there. -/
structure PreLeave (st : ServerState) (sid : SocketId) : Prop where
  roomsNE : ∀ p ∈ st.rooms, p.2 ≠ []
  roomsND : (mkeys st.rooms).Nodup
  boundND : (mkeys st.currentRoomOf).Nodup
  chansND : (mkeys st.channels).Nodup
  boundMem : ∀ p ∈ st.currentRoomOf, p.1 ∈ roomKeys st p.2
  memBound : ∀ q ∈ st.rooms, ∀ e ∈ q.2, mget? st.currentRoomOf e.1 = some q.1
  chanIn : ∀ c ∈ st.channels, ∀ x ∈ c.2, x ∈ roomKeys st c.1
  roomInX : ∀ q ∈ st.rooms, ∀ e ∈ q.2, e.1 ≠ sid → e.1 ∈ channelMembers st q.1

/-- What holds of a state in which `sid` is a member of nothing: the full
invariant except that `sid` may still carry a (stale) binding. -/
structure LeaveInv (st : ServerState) (sid : SocketId) : Prop where
  roomsNE : ∀ p ∈ st.rooms, p.2 ≠ []
  roomsND : (mkeys st.rooms).Nodup
  boundND : (mkeys st.currentRoomOf).Nodup
  chansND : (mkeys st.channels).Nodup
  boundMemX : ∀ p ∈ st.currentRoomOf, p.1 ≠ sid → p.1 ∈ roomKeys st p.2
  memBound : ∀ q ∈ st.rooms, ∀ e ∈ q.2, mget? st.currentRoomOf e.1 = some q.1
  sidFreeRooms : ∀ q ∈ st.rooms, ∀ e ∈ q.2, e.1 ≠ sid
  sidFreeChans : ∀ c ∈ st.channels, ∀ x ∈ c.2, x ≠ sid
  chanIn : ∀ c ∈ st.channels, ∀ x ∈ c.2, x ∈ roomKeys st c.1
  roomIn : ∀ q ∈ st.rooms, ∀ e ∈ q.2, e.1 ∈ channelMembers st q.1

theorem Inv.toPreLeave {st : ServerState} (h : Inv st) (sid : SocketId) :
    PreLeave st sid :=
  ⟨h.roomsNE, h.roomsND, h.boundND, h.chansND, h.boundMem, h.memBound, h.chanIn,
   fun q hq e he _ => h.roomIn q hq e he⟩

theorem Inv.toLeaveInv_unbound {st : ServerState} (h : Inv st) {sid : SocketId}
    (hb : mget? st.currentRoomOf sid = none) : LeaveInv st sid := by
  refine ⟨h.roomsNE, h.roomsND, h.boundND, h.chansND,
    fun p hp _ => h.boundMem p hp, h.memBound, ?_, ?_, h.chanIn, h.roomIn⟩
  · intro q hq e he hes
    have hkey : e.1 ∈ roomKeys st q.1 := by
      rw [mem_roomKeys_iff]
      exact ⟨q.2, mget?_of_mem_nodup h.roomsND hq, (mem_mkeys_iff q.2 e.1).mpr ⟨e, he, rfl⟩⟩
    rw [hes] at hkey
    exact h.unboundFree hb q.1 hkey
  · intro c hc x hx hxs
    have hkey := h.chanIn c hc x hx
    rw [hxs] at hkey
    exact h.unboundFree hb c.1 hkey

/-- Leaving the bound room establishes `LeaveInv`: the socket is gone from
the registry and the channels, everything else stays consistent. -/
theorem leaveRoom_linv {st : ServerState} {sid : SocketId} {room : RoomName}
    (h : PreLeave st sid) (hb : mget? st.currentRoomOf sid = some room) :
    LeaveInv (leaveRoom st sid room).1 sid := by
  have hbound := leaveRoom_bound st sid room
  have hRK := leaveRoom_roomKeys st sid room
  have hCM := leaveRoom_members st sid room
  -- entries of other rooms never mention sid
  have hFree : ∀ q ∈ st.rooms, q.1 ≠ room → ∀ e ∈ q.2, e.1 ≠ sid := by
    intro q hq hqr e he hes
    apply hqr
    apply uniqueRoom_of_memBound h.memBound hb
    rw [mem_roomKeys_iff]
    exact ⟨q.2, mget?_of_mem_nodup h.roomsND hq,
      (mem_mkeys_iff q.2 sid).mpr ⟨e, he, hes⟩⟩
  have hFreeCh : ∀ c ∈ st.channels, c.1 ≠ room → ∀ x ∈ c.2, x ≠ sid := by
    intro c hc hcr x hx hxs
    apply hcr
    apply uniqueRoom_of_memBound h.memBound hb
    have := h.chanIn c hc x hx
    rw [hxs] at this
    exact this
  constructor
  · -- roomsNE
    intro p hp
    rcases leaveRoom_rooms_mem h.roomsND hp with ⟨h1, _⟩ | ⟨users, _, hq, he⟩
    · exact h.roomsNE p h1
    · rw [hq]
      exact isEmpty_false_ne_nil he
  · -- roomsND
    cases hr : mget? st.rooms room with
    | none => rw [(leaveRoom_rooms_none sid hr).1]; exact h.roomsND
    | some users =>
      cases he : (mdel users sid).isEmpty with
      | true => rw [(leaveRoom_rooms_del hr he).1]; exact nodup_mkeys_mdel _ _ h.roomsND
      | false => rw [(leaveRoom_rooms_set hr he).1]; exact nodup_mkeys_mset _ _ _ h.roomsND
  · -- boundND
    rw [hbound]
    exact h.boundND
  · -- chansND
    rw [leaveRoom_channels]
    unfold socketLeave
    cases hc : mget? st.channels room with
    | none => exact h.chansND
    | some ms => exact nodup_mkeys_mset _ _ _ h.chansND
  · -- boundMemX
    intro p hp hps
    rw [hbound] at hp
    have h1 := h.boundMem p hp
    rw [hRK p.2]
    by_cases hx : p.2 = room
    · rw [if_pos hx]
      rw [hx] at h1
      exact mem_filter_ne.mpr ⟨h1, hps⟩
    · rw [if_neg hx]
      exact h1
  · -- memBound
    intro q hq e he
    rw [hbound]
    rcases leaveRoom_rooms_mem h.roomsND hq with ⟨h1, _⟩ | ⟨users, hr, hq2, _⟩
    · exact h.memBound q h1 e he
    · rw [hq2] at he ⊢
      rcases (mem_mdel users sid e).mp he with ⟨h1, _⟩
      exact h.memBound (room, users) (mget?_mem hr) e h1
  · -- sidFreeRooms
    intro q hq e he
    rcases leaveRoom_rooms_mem h.roomsND hq with ⟨h1, h2⟩ | ⟨users, hr, hq2, _⟩
    · exact hFree q h1 h2 e he
    · rw [hq2] at he
      exact ((mem_mdel users sid e).mp he).2
  · -- sidFreeChans
    intro c hc x hx
    rw [leaveRoom_channels] at hc
    rcases socketLeave_channels_mem h.chansND hc with ⟨h1, h2⟩ | ⟨ms, hcm, hc2⟩
    · exact hFreeCh c h1 h2 x hx
    · rw [hc2] at hx
      exact (mem_filter_ne.mp hx).2
  · -- chanIn
    intro c hc x hx
    rw [leaveRoom_channels] at hc
    rcases socketLeave_channels_mem h.chansND hc with ⟨h1, h2⟩ | ⟨ms, hcm, hc2⟩
    · have h3 := h.chanIn c h1 x hx
      rw [hRK c.1, if_neg h2]
      exact h3
    · rw [hc2] at hx ⊢
      rcases mem_filter_ne.mp hx with ⟨h3, h4⟩
      have h5 := h.chanIn (room, ms) (mget?_mem hcm) x h3
      rw [hRK room, if_pos rfl]
      exact mem_filter_ne.mpr ⟨h5, h4⟩
  · -- roomIn
    intro q hq e he
    rcases leaveRoom_rooms_mem h.roomsND hq with ⟨h1, h2⟩ | ⟨users, hr, hq2, _⟩
    · have h3 := h.roomInX q h1 e he (hFree q h1 h2 e he)
      rw [hCM q.1, if_neg h2]
      exact h3
    · rw [hq2] at he
      rcases (mem_mdel users sid e).mp he with ⟨h1, h2⟩
      have h3 := h.roomInX (room, users) (mget?_mem hr) e h1 h2
      rw [hq2, hCM room, if_pos rfl]
      exact mem_filter_ne.mpr ⟨h3, h2⟩

/-- Joining restores the full invariant from `LeaveInv`. -/
theorem joinRoom_inv {st : ServerState} {sid : SocketId} (room : RoomName)
    (username : String) (h : LeaveInv st sid) :
    Inv (joinRoom st sid room username).1 := by
  have hrooms := joinRoom_rooms st sid room username
  have hbound := joinRoom_bound st sid room username
  have hqmem : ∀ q ∈ (joinRoom st sid room username).1.rooms,
      (q ∈ st.rooms ∧ q.1 ≠ room) ∨
      q = (room, mset ((mget? st.rooms room).getD []) sid ⟨username, false, 0⟩) := by
    intro q hq
    rw [hrooms] at hq
    exact (mem_mset_iff h.roomsND q).mp hq
  have hU0 : ∀ e ∈ (mget? st.rooms room).getD [],
      mget? st.currentRoomOf e.1 = some room ∧ e.1 ≠ sid ∧
      e.1 ∈ channelMembers st room := by
    intro e he
    cases hr : mget? st.rooms room with
    | none => rw [hr] at he; cases he
    | some users =>
      rw [hr] at he
      exact ⟨h.memBound (room, users) (mget?_mem hr) e he,
        h.sidFreeRooms (room, users) (mget?_mem hr) e he,
        h.roomIn (room, users) (mget?_mem hr) e he⟩
  have hRoomKeys0 : roomKeys st room = mkeys ((mget? st.rooms room).getD []) := rfl
  have hMS : ∀ x, x ∈ (if sid ∈ channelMembers st room then channelMembers st room
      else channelMembers st room ++ [sid]) → x ∈ channelMembers st room ∨ x = sid := by
    intro x hx
    by_cases hin : sid ∈ channelMembers st room
    · rw [if_pos hin] at hx
      exact Or.inl hx
    · rw [if_neg hin] at hx
      rcases List.mem_append.mp hx with h1 | h1
      · exact Or.inl h1
      · exact Or.inr (List.mem_singleton.mp h1)
  have hMS2 : ∀ x, x ∈ channelMembers st room →
      x ∈ (if sid ∈ channelMembers st room then channelMembers st room
           else channelMembers st room ++ [sid]) := by
    intro x hx
    by_cases hin : sid ∈ channelMembers st room
    · rw [if_pos hin]; exact hx
    · rw [if_neg hin]; exact List.mem_append_left _ hx
  constructor
  · -- roomsNE
    intro p hp
    rcases hqmem p hp with ⟨h1, _⟩ | h1
    · exact h.roomsNE p h1
    · rw [h1]
      exact mset_ne_nil _ _ _
  · -- roomsND
    rw [hrooms]
    exact nodup_mkeys_mset _ _ _ h.roomsND
  · -- boundND
    rw [hbound]
    exact nodup_mkeys_mset _ _ _ h.boundND
  · -- chansND
    rw [joinRoom_channels]
    unfold socketJoin
    exact nodup_mkeys_mset _ _ _ h.chansND
  · -- boundMem
    intro p hp
    rw [hbound] at hp
    rw [joinRoom_roomKeys]
    rcases (mem_mset_iff h.boundND p).mp hp with ⟨hp1, hp2⟩ | hp1
    · have h1 := h.boundMemX p hp1 hp2
      by_cases hx : p.2 = room
      · rw [if_pos hx]
        rw [hx, hRoomKeys0] at h1
        exact (mem_mkeys_mset _ sid _ p.1).mpr (Or.inl h1)
      · rw [if_neg hx]
        exact h1
    · rw [hp1]
      rw [if_pos rfl]
      exact (mem_mkeys_mset _ sid _ sid).mpr (Or.inr rfl)
  · -- memBound
    intro q hq e he
    rw [hbound]
    rcases hqmem q hq with ⟨hq1, _⟩ | hq1
    · have h1 := h.memBound q hq1 e he
      have h2 := h.sidFreeRooms q hq1 e he
      rw [mget?_mset_ne _ _ _ _ h2]
      exact h1
    · rw [hq1] at he ⊢
      rcases mem_mset he with h1 | h1
      · have h2 := (hU0 e h1).1
        have h3 := (hU0 e h1).2.1
        rw [mget?_mset_ne _ _ _ _ h3]
        exact h2
      · rw [h1, mget?_mset_self]
  · -- chanIn
    intro c hc x hx
    rw [joinRoom_channels] at hc
    rw [joinRoom_roomKeys]
    rcases socketJoin_channels_mem h.chansND hc with ⟨hc1, hc2⟩ | hc1
    · rw [if_neg hc2]
      exact h.chanIn c hc1 x hx
    · rw [hc1] at hx
      have hmm : c.1 = room := by rw [hc1]
      rw [if_pos hmm]
      rcases hMS x hx with h1 | h1
      · -- a pre-existing channel member is a registry member
        have h2 : x ∈ roomKeys st room := by
          unfold channelMembers at h1
          cases hcg : mget? st.channels room with
          | none => rw [hcg] at h1; cases h1
          | some ms =>
            rw [hcg] at h1
            exact h.chanIn (room, ms) (mget?_mem hcg) x h1
        rw [hRoomKeys0] at h2
        exact (mem_mkeys_mset _ sid _ x).mpr (Or.inl h2)
      · rw [h1]
        exact (mem_mkeys_mset _ sid _ sid).mpr (Or.inr rfl)
  · -- roomIn
    intro q hq e he
    rw [joinRoom_members]
    rcases hqmem q hq with ⟨hq1, hq2⟩ | hq1
    · rw [if_neg hq2]
      exact h.roomIn q hq1 e he
    · have hmm : q.1 = room := by rw [hq1]
      rw [if_pos hmm]
      rw [hq1] at he
      rcases mem_mset he with h1 | h1
      · exact hMS2 e.1 (hU0 e h1).2.2
      · rw [h1]
        by_cases hin : sid ∈ channelMembers st room
        · rw [if_pos hin]; exact hin
        · rw [if_neg hin]
          exact List.mem_append_right _ (List.mem_singleton.mpr rfl)

/-- Deleting the departed socket's binding restores the full invariant. -/
theorem LeaveInv.mdelBound {st : ServerState} {sid : SocketId} (h : LeaveInv st sid) :
    Inv { st with currentRoomOf := mdel st.currentRoomOf sid } := by
  refine ⟨h.roomsNE, h.roomsND, nodup_mkeys_mdel _ _ h.boundND, h.chansND, ?_, ?_,
    h.chanIn, h.roomIn⟩
  · intro p hp
    rcases (mem_mdel _ _ _).mp hp with ⟨h1, h2⟩
    exact h.boundMemX p h1 h2
  · intro q hq e he
    have h1 := h.memBound q hq e he
    have h2 := h.sidFreeRooms q hq e he
    rw [mget?_mdel_ne _ _ _ h2]
    exact h1

/-- Updating a member's stored speaking state preserves the invariant. -/
theorem speaking_inv {st : ServerState} {sid : SocketId} {room : RoomName}
    {users : List (SocketId × User)} {u : User} (h : Inv st)
    (hb : mget? st.currentRoomOf sid = some room)
    (hr : mget? st.rooms room = some users) (hu : mget? users sid = some u)
    (u' : User) :
    Inv { st with rooms := mset st.rooms room (mset users sid u') } := by
  have hRK : ∀ r', roomKeys { st with rooms := mset st.rooms room (mset users sid u') } r'
      = if r' = room then mkeys (mset users sid u') else roomKeys st r' := by
    intro r'
    by_cases hx : r' = room
    · subst hx
      rw [if_pos rfl]
      unfold roomKeys
      rw [mget?_mset_self]
      simp only [Option.getD_some]
    · rw [if_neg hx]
      unfold roomKeys
      rw [mget?_mset_ne _ _ _ _ hx]
  have hRoomKeys0 : roomKeys st room = mkeys users := by
    unfold roomKeys
    rw [hr]
    simp only [Option.getD_some]
  have hqmem : ∀ q ∈ mset st.rooms room (mset users sid u'),
      (q ∈ st.rooms ∧ q.1 ≠ room) ∨ q = (room, mset users sid u') :=
    fun q hq => (mem_mset_iff h.roomsND q).mp hq
  constructor
  · intro p hp
    rcases hqmem p hp with ⟨h1, _⟩ | h1
    · exact h.roomsNE p h1
    · rw [h1]
      exact mset_ne_nil _ _ _
  · exact nodup_mkeys_mset _ _ _ h.roomsND
  · exact h.boundND
  · exact h.chansND
  · intro p hp
    have h1 := h.boundMem p hp
    rw [hRK p.2]
    by_cases hx : p.2 = room
    · rw [if_pos hx]
      rw [hx, hRoomKeys0] at h1
      exact (mem_mkeys_mset _ sid _ p.1).mpr (Or.inl h1)
    · rw [if_neg hx]
      exact h1
  · intro q hq e he
    rcases hqmem q hq with ⟨h1, _⟩ | h1
    · exact h.memBound q h1 e he
    · rw [h1] at he ⊢
      rcases mem_mset he with h2 | h2
      · exact h.memBound (room, users) (mget?_mem hr) e h2
      · rw [h2]
        exact hb
  · intro c hc x hx
    have h1 := h.chanIn c hc x hx
    rw [hRK c.1]
    by_cases hx2 : c.1 = room
    · rw [if_pos hx2]
      rw [hx2, hRoomKeys0] at h1
      exact (mem_mkeys_mset _ sid _ x).mpr (Or.inl h1)
    · rw [if_neg hx2]
      exact h1
  · intro q hq e he
    rcases hqmem q hq with ⟨h1, _⟩ | h1
    · exact h.roomIn q h1 e he
    · rw [h1] at he
      have hmm : q.1 = room := by rw [h1]
      rcases mem_mset he with h2 | h2
      · have := h.roomIn (room, users) (mget?_mem hr) e h2
        rw [hmm]
        exact this
      · have := h.roomIn (room, users) (mget?_mem hr) (sid, u) (mget?_mem hu)
        rw [hmm, h2]
        exact this

/-- The state right after the transport has removed a disconnecting socket
from the connected set and from every channel (what the `disconnect`
handler observes). -/
def dropSocket (st : ServerState) (sid : SocketId) : ServerState :=
  { st with
    connected := st.connected.filter (fun x => x ≠ sid),
    channels := st.channels.map (fun p => (p.1, p.2.filter (fun x => x ≠ sid))) }

theorem onDisconnect_eq (st : ServerState) (sid : SocketId) :
    onDisconnect st sid =
      (match mget? st.currentRoomOf sid with
       | some room =>
         ({ (leaveRoom (dropSocket st sid) sid room).1 with
            currentRoomOf :=
              mdel (leaveRoom (dropSocket st sid) sid room).1.currentRoomOf sid },
          (leaveRoom (dropSocket st sid) sid room).2)
       | none =>
         ({ dropSocket st sid with currentRoomOf := mdel st.currentRoomOf sid },
          [])) := by
  unfold onDisconnect dropSocket
  cases hb : mget? st.currentRoomOf sid <;> simp [hb]

theorem dropSocket_members (st : ServerState) (sid : SocketId) (r : RoomName) :
    channelMembers (dropSocket st sid) r
      = (channelMembers st r).filter (fun x => x ≠ sid) := by
  unfold dropSocket channelMembers
  rw [mget?_map_values]
  cases mget? st.channels r <;> simp

theorem dropSocket_preLeave {st : ServerState} (h : Inv st) (sid : SocketId) :
    PreLeave (dropSocket st sid) sid := by
  refine ⟨h.roomsNE, h.roomsND, h.boundND, ?_, h.boundMem, h.memBound, ?_, ?_⟩
  · show (mkeys (st.channels.map (fun p => (p.1, p.2.filter (fun x => x ≠ sid))))).Nodup
    rw [mkeys_map_snd]
    exact h.chansND
  · intro c hc x hx
    rcases List.mem_map.mp hc with ⟨c0, hc0, hceq⟩
    rw [← hceq] at hx
    have h1 := h.chanIn c0 hc0 x (mem_filter_ne.mp hx).1
    rw [← hceq]
    exact h1
  · intro q hq e he hes
    have h1 := h.roomIn q hq e he
    rw [dropSocket_members]
    exact mem_filter_ne.mpr ⟨h1, hes⟩

theorem dropSocket_inv_unbound {st : ServerState} (h : Inv st) {sid : SocketId}
    (hb : mget? st.currentRoomOf sid = none) : Inv (dropSocket st sid) := by
  refine ⟨h.roomsNE, h.roomsND, h.boundND, ?_, h.boundMem, h.memBound, ?_, ?_⟩
  · show (mkeys (st.channels.map (fun p => (p.1, p.2.filter (fun x => x ≠ sid))))).Nodup
    rw [mkeys_map_snd]
    exact h.chansND
  · intro c hc x hx
    rcases List.mem_map.mp hc with ⟨c0, hc0, hceq⟩
    rw [← hceq] at hx
    have h1 := h.chanIn c0 hc0 x (mem_filter_ne.mp hx).1
    rw [← hceq]
    exact h1
  · intro q hq e he
    have h1 := h.roomIn q hq e he
    have hes : e.1 ≠ sid := by
      intro hx
      apply h.unboundFree hb q.1
      rw [mem_roomKeys_iff]
      exact ⟨q.2, mget?_of_mem_nodup h.roomsND hq,
        (mem_mkeys_iff q.2 sid).mpr ⟨e, he, hx⟩⟩
    rw [dropSocket_members]
    exact mem_filter_ne.mpr ⟨h1, hes⟩

/-- Every server event preserves the invariant. -/
theorem inv_step {st : ServerState} {e : SEvent} {st' : ServerState}
    {msgs : List Msg} (h : Inv st) (hs : step st e = some (st', msgs)) :
    Inv st' := by
  cases e with
  | connect sid =>
    simp only [step] at hs
    by_cases hc : sid ∈ st.connected
    · rw [if_pos hc] at hs
      cases hs
    · rw [if_neg hc] at hs
      have h1 := Option.some.inj hs
      have hst : st' = { st with connected := st.connected ++ [sid] } :=
        (congrArg Prod.fst h1).symm
      rw [hst]
      exact ⟨h.roomsNE, h.roomsND, h.boundND, h.chansND, h.boundMem, h.memBound,
        h.chanIn, h.roomIn⟩
  | joinRm sid room username =>
    simp only [step] at hs
    by_cases hc : sid ∈ st.connected
    · rw [if_pos hc] at hs
      have h1 := Option.some.inj hs
      have hst : st' = (onJoinRoom st sid room username).1 := by rw [h1]
      rw [hst]
      unfold onJoinRoom
      cases hb : mget? st.currentRoomOf sid with
      | some old =>
        exact joinRoom_inv room username (leaveRoom_linv (h.toPreLeave sid) hb)
      | none =>
        exact joinRoom_inv room username (h.toLeaveInv_unbound hb)
    · rw [if_neg hc] at hs
      cases hs
  | leaveRm sid =>
    simp only [step] at hs
    by_cases hc : sid ∈ st.connected
    · rw [if_pos hc] at hs
      have h1 := Option.some.inj hs
      have hst : st' = (onLeaveRoom st sid).1 := by rw [h1]
      rw [hst]
      unfold onLeaveRoom
      cases hb : mget? st.currentRoomOf sid with
      | some room =>
        exact (leaveRoom_linv (h.toPreLeave sid) hb).mdelBound
      | none => exact h
    · rw [if_neg hc] at hs
      cases hs
  | voice sid data =>
    simp only [step] at hs
    by_cases hc : sid ∈ st.connected
    · rw [if_pos hc] at hs
      have h1 := Option.some.inj hs
      have hst : st' = (onVoice st sid data).1 := by rw [h1]
      rw [hst]
      unfold onVoice
      cases hb : mget? st.currentRoomOf sid with
      | some room => exact h
      | none => exact h
    · rw [if_neg hc] at hs
      cases hs
  | speaking sid isSp energy =>
    simp only [step] at hs
    by_cases hc : sid ∈ st.connected
    · rw [if_pos hc] at hs
      unfold onSpeaking at hs
      cases hb : mget? st.currentRoomOf sid with
      | none =>
        simp only [hb] at hs
        have h1 := Option.some.inj hs
        have hst : st' = st := (congrArg Prod.fst h1).symm
        rw [hst]
        exact h
      | some room =>
        simp only [hb] at hs
        cases hr : mget? st.rooms room with
        | none =>
          simp only [hr] at hs
          cases hs
        | some users =>
          simp only [hr] at hs
          cases hu : mget? users sid with
          | none =>
            simp only [hu] at hs
            have h1 := Option.some.inj hs
            have hst : st' = st := (congrArg Prod.fst h1).symm
            rw [hst]
            exact h
          | some u =>
            simp only [hu] at hs
            have h1 := Option.some.inj hs
            have hst : st' = { st with rooms := mset st.rooms room (mset users sid { u with isSpeaking := isSp, energy := energy }) } := (congrArg Prod.fst h1).symm
            rw [hst]
            exact speaking_inv h hb hr hu _
    · rw [if_neg hc] at hs
      cases hs
  | disconnect sid =>
    simp only [step] at hs
    by_cases hc : sid ∈ st.connected
    · rw [if_pos hc] at hs
      have h1 := Option.some.inj hs
      have hst : st' = (onDisconnect st sid).1 := by rw [h1]
      rw [hst, onDisconnect_eq]
      cases hb : mget? st.currentRoomOf sid with
      | some room =>
        exact (leaveRoom_linv (dropSocket_preLeave h sid) hb).mdelBound
      | none =>
        have h2 := dropSocket_inv_unbound h hb
        show Inv { dropSocket st sid with currentRoomOf := mdel st.currentRoomOf sid }
        rw [mdel_eq_self_of_none hb]
        exact h2
    · rw [if_neg hc] at hs
      cases hs

/-- Every reachable server state satisfies the invariant. -/
theorem reachable_inv {st : ServerState} (h : Reachable st) : Inv st := by
  induction h with
  | init =>
    refine ⟨?_, ?_, ?_, ?_, ?_, ?_, ?_, ?_⟩ <;> simp [initState, mkeys]
  | next hr hs ih => exact inv_step ih hs

/-! ## Client-side model (`app.js`)

JS numbers in the audio pipeline are modelled as reals extended with the
IEEE `-Infinity` produced by `Math.log10(0)`.  (`NaN` never arises on the
paths the claims are about: blocks are non-empty and squares are
non-negative.) -/

/-- A JS number as it occurs in the energy pipeline: `-Infinity` or a
finite real. -/
inductive JsNum where
  | negInf : JsNum
  | fin : ℝ → JsNum

/-- The `<` comparison on such numbers (`-Infinity` below every finite). -/
def JsNum.lt : JsNum → JsNum → Prop
  | .negInf, .negInf => False
  | .negInf, .fin _ => True
  | .fin _, .negInf => False
  | .fin x, .fin y => x < y

/-- The `>` comparison used by `energy > ENERGY_THRESHOLD`. -/
def JsNum.gtn (a b : JsNum) : Prop := JsNum.lt b a

noncomputable instance : ∀ a b : JsNum, Decidable (JsNum.lt a b)
  | .negInf, .negInf => isFalse (fun h => h)
  | .negInf, .fin _ => isTrue trivial
  | .fin _, .negInf => isFalse (fun h => h)
  | .fin x, .fin y => inferInstanceAs (Decidable (x < y))

noncomputable instance (a b : JsNum) : Decidable (JsNum.gtn a b) :=
  inferInstanceAs (Decidable (JsNum.lt b a))

/-- `const ENERGY_THRESHOLD = -45; // in dB` -/
def ENERGY_THRESHOLD : JsNum := .fin (-45)

/-- `const SPEECH_PADDING = 300; // ms` -/
def SPEECH_PADDING : ℤ := 300

/-- `calculateEnergy(buffer)`: sum of squares, `rms = sqrt(sum / length)`,
result `20 * Math.log10(rms)`.  `Math.log10(0)` is `-Infinity` in JS,
modelled by the case split on `rms = 0`. -/
noncomputable def calculateEnergy (buffer : List ℝ) : JsNum :=
  let sum := (buffer.map (fun x => x * x)).sum
  let rms := Real.sqrt (sum / buffer.length)
  if rms = 0 then .negInf else .fin (20 * Real.logb 10 rms)

/-- The VAD's persistent state: the module-level `lastVoiceDetectTime`
(milliseconds, as returned by `Date.now()`). -/
structure VadState where
  lastVoiceDetectTime : ℤ
deriving DecidableEq, Repr

/-- `detectVoiceActivity(energy)` at time `now`: above the threshold record
the detection time and classify speaking; within the padding window after
the last detection keep classifying speaking; otherwise not speaking. -/
noncomputable def detectVoiceActivity (st : VadState) (energy : JsNum) (now : ℤ) :
    Bool × VadState :=
  let timeSinceLastDetection := now - st.lastVoiceDetectTime
  if energy.gtn ENERGY_THRESHOLD then (true, { lastVoiceDetectTime := now })
  else if timeSinceLastDetection < SPEECH_PADDING then (true, st)
  else (false, st)

/-- `AudioContext.state`. -/
inductive AcState where
  | suspended
  | running
  | closed
deriving DecidableEq, Repr

/-- A received `voice` payload `{ id, data }` awaiting playback. -/
structure VoiceMsg where
  id : String
  buffer : List Int
deriving DecidableEq, Repr

/-- The client's module-level mutable state.  `nowPlaying` and the two
history lists `played` and `arrived` are observations of the Web Audio
source nodes (the block whose `onended` callback is pending, the blocks
whose playback completed, the blocks accepted into the queue); the
remaining fields are variables of `app.js`. -/
structure ClientState where
  currentUserId : Option String
  vadEnabled : Bool
  lastVoiceDetectTime : ℤ
  isCurrentlySpeaking : Bool
  audioContext : Option AcState
  audioQueue : List VoiceMsg
  isPlaying : Bool
  nowPlaying : Option VoiceMsg
  played : List VoiceMsg
  arrived : List VoiceMsg
deriving DecidableEq, Repr

/-- A fresh page load: nothing set, nothing playing. -/
def clientInit : ClientState :=
  ⟨none, false, 0, false, none, [], false, none, [], []⟩

/-- What `processAudio` pushes to its collaborators: the raw block to the
network (`socket.emit('voice', ...)`), the local meter update, and the
speaking-state notification (`socket.emit('speaking', ...)`).  Debug lines
are omitted. -/
inductive CEmit where
  | voiceOut (buffer : List ℝ)
  | meter (userId : String) (energy : JsNum)
  | speakingOut (isSpeaking : Bool) (energy : JsNum)

/-- `processAudio(event)`: bail out unless VAD is enabled and an identity is
assigned; compute energy and classification; emit the raw block when
speaking; always update the local meter; when the classification changed,
store it and emit the speaking-state notification. -/
noncomputable def processAudio (st : ClientState) (block : List ℝ) (now : ℤ) :
    ClientState × List CEmit :=
  match st.currentUserId, st.vadEnabled with
  | some uid, true =>
    let energy := calculateEnergy block
    let r := detectVoiceActivity ⟨st.lastVoiceDetectTime⟩ energy now
    let isSpeaking := r.1
    let st1 := { st with lastVoiceDetectTime := r.2.lastVoiceDetectTime }
    let emits := (if isSpeaking then [CEmit.voiceOut block] else [])
                 ++ [CEmit.meter uid energy]
    if isSpeaking ≠ st.isCurrentlySpeaking then
      ({ st1 with isCurrentlySpeaking := isSpeaking },
       emits ++ [CEmit.speakingOut isSpeaking energy])
    else (st1, emits)
  | _, _ => (st, [])

/-- `playNextAudio()`: on an empty queue clear the flag and stop; otherwise
set the flag, shift the head of the queue and start playing it. -/
def playNextAudio (st : ClientState) : ClientState :=
  match st.audioQueue with
  | [] => { st with isPlaying := false }
  | a :: rest =>
    { st with isPlaying := true, audioQueue := rest, nowPlaying := some a }

/-- `socket.on('voice', ...)` on the client: only when an audio context
exists and is running, enqueue the block and, when nothing is playing,
start the drain loop. -/
def clientOnVoice (st : ClientState) (id : String) (data : List Int) : ClientState :=
  if st.audioContext = some .running then
    let m : VoiceMsg := ⟨id, data⟩
    let st1 := { st with audioQueue := st.audioQueue ++ [m],
                         arrived := st.arrived ++ [m] }
    if st1.isPlaying then st1 else playNextAudio st1
  else st

/-- The `onended` callback of the playing source: it can only fire while a
source is playing (`none` otherwise); the finished block moves to the
history and `playNextAudio` runs. -/
def onEnded (st : ClientState) : Option ClientState :=
  match st.nowPlaying with
  | some a =>
    some (playNextAudio { st with nowPlaying := none, played := st.played ++ [a] })
  | none => none

/-- Events driving the playback queue. -/
inductive PbEvent where
  | arrive (id : String) (data : List Int)
  | ended
deriving DecidableEq, Repr

/-- One playback-side step. -/
def pbStep (st : ClientState) : PbEvent → Option ClientState
  | .arrive id data => some (clientOnVoice st id data)
  | .ended => onEnded st

/-- Run a sequence of playback events. -/
def pbRun (st : ClientState) : List PbEvent → Option ClientState
  | [] => some st
  | e :: rest =>
    match pbStep st e with
    | some st1 => pbRun st1 rest
    | none => none

/-- `startVoiceChat()`: refuse without an identity; otherwise await
microphone acquisition (`micResult` is the outcome of
`navigator.mediaDevices.getUserMedia`).  On failure the `catch` block logs
`Error starting voice chat: <message>` and nothing else happens — no state
is assigned and no exception escapes.  On success the audio context is
created (running) and the processing graph is attached (`vadEnabled`).
Returns the new state and the debug-sink lines. -/
def startVoiceChat (st : ClientState) (micResult : Except String Unit) :
    ClientState × List String :=
  match st.currentUserId with
  | none => (st, ["Error: User ID not set. Please try rejoining the room."])
  | some _ =>
    match micResult with
    | .error msg =>
      (st, ["Starting voice chat...", "Requesting microphone access...",
            "Error starting voice chat: " ++ msg])
    | .ok _ =>
      ({ st with audioContext := some .running, vadEnabled := true },
       ["Starting voice chat...", "Requesting microphone access...",
        "Microphone access granted.", "Voice chat started successfully."])

/-! ## Running event sequences (used to exhibit concrete reachable states) -/

/-- Run a sequence of events from a state, discarding the emitted messages;
`none` as soon as an event cannot occur. -/
def runEvents : ServerState → List SEvent → Option ServerState
  | st, [] => some st
  | st, e :: rest =>
    match step st e with
    | some r => runEvents r.1 rest
    | none => none

theorem reachable_of_run_from {evs : List SEvent} :
    ∀ {st0 st : ServerState}, Reachable st0 → runEvents st0 evs = some st →
      Reachable st := by
  induction evs with
  | nil =>
    intro st0 st h0 hr
    unfold runEvents at hr
    rw [Option.some.inj hr] at h0
    exact h0
  | cons e rest ih =>
    intro st0 st h0 hr
    unfold runEvents at hr
    cases hs : step st0 e with
    | none => rw [hs] at hr; cases hr
    | some r =>
      rw [hs] at hr
      exact ih (Reachable.next h0 (hs.trans (congrArg some (Prod.mk.eta).symm))) hr

/-- Any state `runEvents` produces from the initial state is reachable. -/
theorem reachable_of_run {evs : List SEvent} {st : ServerState}
    (h : runEvents initState evs = some st) : Reachable st :=
  reachable_of_run_from Reachable.init h

/-- A concrete two-member room, reached by: connect `a`, `a` joins `lobby`,
connect `b`, `b` joins `lobby`. -/
def wsState : ServerState :=
  ⟨[("lobby", [("a", ⟨"alice", false, 0⟩), ("b", ⟨"bob", false, 0⟩)])],
   [("lobby", ["a", "b"])],
   [("a", "lobby"), ("b", "lobby")],
   ["a", "b"]⟩

theorem wsState_reachable : Reachable wsState := by
  apply @reachable_of_run [SEvent.connect "a",
    SEvent.joinRm "a" "lobby" "alice", SEvent.connect "b",
    SEvent.joinRm "b" "lobby" "bob"] wsState
  decide

/-! ## Claim theorems -/

/-- Claim C2: in every server state reached by any sequence of connection
events (joins, leaves, voice, speaking, disconnects), every room present in
the registry has a non-empty participant set — rooms are created only
together with their first participant and deleted with their last. -/
theorem no_empty_rooms {st : ServerState} (h : Reachable st) :
    ∀ p ∈ st.rooms, p.2 ≠ [] :=
  (reachable_inv h).roomsNE

theorem no_empty_rooms_witness :
    ("lobby", [("a", (⟨"alice", false, 0⟩ : User)), ("b", ⟨"bob", false, 0⟩)])
      ∈ wsState.rooms ∧
    ([("a", (⟨"alice", false, 0⟩ : User)), ("b", ⟨"bob", false, 0⟩)]
      : List (SocketId × User)) ≠ [] :=
  ⟨by decide,
   no_empty_rooms wsState_reachable
     ("lobby", [("a", ⟨"alice", false, 0⟩), ("b", ⟨"bob", false, 0⟩)]) (by decide)⟩

/-- Claim C1: a `voice` event from a connection bound to a room is forwarded
— raw block plus sender identity — to every other member of that room and
to nobody else: never back to the sender, never to a member of another
room; from an unbound connection it is a silent no-op. -/
theorem voice_relay {st : ServerState} (h : Reachable st) (sid : SocketId)
    (data : List Int) :
    (∀ room, mget? st.currentRoomOf sid = some room →
      (onVoice st sid data).1 = st ∧
      (∀ m ∈ (onVoice st sid data).2,
          m.2 = SPayload.voice sid data ∧ m.1 ≠ sid ∧ m.1 ∈ roomKeys st room) ∧
      (∀ x ∈ roomKeys st room, x ≠ sid →
          (x, SPayload.voice sid data) ∈ (onVoice st sid data).2) ∧
      (∀ r' x, r' ≠ room → x ∈ roomKeys st r' →
          ∀ m ∈ (onVoice st sid data).2, m.1 ≠ x)) ∧
    (mget? st.currentRoomOf sid = none → onVoice st sid data = (st, [])) := by
  have hI := reachable_inv h
  constructor
  · intro room hb
    have honv : onVoice st sid data
        = (st, socketToRoom st sid room (SPayload.voice sid data)) := by
      unfold onVoice
      rw [hb]
    rw [honv]
    refine ⟨rfl, ?_, ?_, ?_⟩
    · intro m hm
      unfold socketToRoom at hm
      rcases List.mem_map.mp hm with ⟨x, hx, hmx⟩
      rcases mem_filter_ne.mp hx with ⟨hx1, hx2⟩
      have hx3 := (hI.chanEq room x).mp hx1
      rw [← hmx]
      exact ⟨rfl, hx2, hx3⟩
    · intro x hx hxs
      unfold socketToRoom
      apply List.mem_map_of_mem
      exact mem_filter_ne.mpr ⟨(hI.chanEq room x).mpr hx, hxs⟩
    · intro r' x hr' hx m hm hmx
      unfold socketToRoom at hm
      rcases List.mem_map.mp hm with ⟨y, hy, hmy⟩
      rcases mem_filter_ne.mp hy with ⟨hy1, _⟩
      have hy3 := (hI.chanEq room y).mp hy1
      have hyx : y = x := by rw [← hmx, ← hmy]
      rw [hyx] at hy3
      -- x is a member of both r' and room, so both are x's bound room
      rcases (mem_roomKeys_iff st room x).mp hy3 with ⟨users1, hru1, hk1⟩
      rcases (mem_mkeys_iff users1 x).mp hk1 with ⟨e1, he1, hex1⟩
      rcases (mem_roomKeys_iff st r' x).mp hx with ⟨users2, hru2, hk2⟩
      rcases (mem_mkeys_iff users2 x).mp hk2 with ⟨e2, he2, hex2⟩
      have hb1 := hI.memBoundGet hru1 he1
      have hb2 := hI.memBoundGet hru2 he2
      rw [hex1] at hb1
      rw [hex2] at hb2
      rw [hb1] at hb2
      exact hr' (Option.some.inj hb2).symm
  · intro hb
    unfold onVoice
    rw [hb]

theorem voice_relay_witness :
    ((∀ room, mget? wsState.currentRoomOf "a" = some room →
      (onVoice wsState "a" [1, 2, 3]).1 = wsState ∧
      (∀ m ∈ (onVoice wsState "a" [1, 2, 3]).2,
          m.2 = SPayload.voice "a" [1, 2, 3] ∧ m.1 ≠ "a" ∧
          m.1 ∈ roomKeys wsState room) ∧
      (∀ x ∈ roomKeys wsState room, x ≠ "a" →
          (x, SPayload.voice "a" [1, 2, 3]) ∈ (onVoice wsState "a" [1, 2, 3]).2) ∧
      (∀ r' x, r' ≠ room → x ∈ roomKeys wsState r' →
          ∀ m ∈ (onVoice wsState "a" [1, 2, 3]).2, m.1 ≠ x)) ∧
    (mget? wsState.currentRoomOf "a" = none →
      onVoice wsState "a" [1, 2, 3] = (wsState, []))) ∧
    mget? wsState.currentRoomOf "a" = some "lobby" :=
  ⟨voice_relay wsState_reachable "a" [1, 2, 3], by decide⟩

/-- Claim C8: a `speaking` event from a sender whose identity is present in
its current room updates that participant's stored speaking flag and energy
and broadcasts `user speaking` to every member of the room, the sender
included; when the identity is not present in the (existing) room, the
event is a silent no-op — no registry update, no broadcast.  The update
equation and the no-op guard hold of any state with the given bindings; on
reachable states the broadcast recipients are exactly the room's registry
members, the sender among them. -/
theorem speaking_relay (st : ServerState) (sid : SocketId)
    (isSp : Bool) (energy : Int) (room : RoomName)
    (users : List (SocketId × User))
    (hb : mget? st.currentRoomOf sid = some room)
    (hr : mget? st.rooms room = some users) :
    (∀ u, mget? users sid = some u →
      onSpeaking st sid isSp energy =
        some ({ st with rooms := mset st.rooms room (mset users sid { u with isSpeaking := isSp, energy := energy }) },
              (channelMembers st room).map
                (fun x => (x, SPayload.userSpeaking sid isSp energy))) ∧
      mget? (mset users sid { u with isSpeaking := isSp, energy := energy }) sid
        = some { u with isSpeaking := isSp, energy := energy }) ∧
    (mget? users sid = none → onSpeaking st sid isSp energy = some (st, [])) ∧
    (Reachable st →
      (∀ x, (x, SPayload.userSpeaking sid isSp energy) ∈
          (channelMembers st room).map
            (fun x => (x, SPayload.userSpeaking sid isSp energy))
        ↔ x ∈ roomKeys st room) ∧
      sid ∈ roomKeys st room) := by
  refine ⟨?_, ?_, ?_⟩
  · intro u hu
    refine ⟨?_, mget?_mset_self _ _ _⟩
    unfold onSpeaking ioToRoom
    simp only [hb, hr, hu]
    rfl
  · intro hu
    unfold onSpeaking
    simp only [hb, hr, hu]
  · intro h
    have hI := reachable_inv h
    refine ⟨?_, hI.boundMemGet hb⟩
    intro x
    constructor
    · intro hx
      rcases List.mem_map.mp hx with ⟨y, hy, hxy⟩
      have hyx : y = x := congrArg Prod.fst hxy
      rw [hyx] at hy
      exact (hI.chanEq room x).mp hy
    · intro hx
      exact List.mem_map_of_mem _ ((hI.chanEq room x).mpr hx)

/-- The stale-event state: `a` is still bound to `lobby`, but its identity
is no longer in the room's user map. -/
def staleState : ServerState :=
  ⟨[("lobby", [("b", ⟨"bob", false, 0⟩)])], [("lobby", ["b"])],
   [("a", "lobby")], ["a", "b"]⟩

theorem speaking_relay_witness :
    (onSpeaking wsState "a" true (-20) =
      some ({ wsState with rooms := mset wsState.rooms "lobby" (mset [("a", (⟨"alice", false, 0⟩ : User)), ("b", (⟨"bob", false, 0⟩ : User))] "a" { (⟨"alice", false, 0⟩ : User) with isSpeaking := true, energy := -20 }) },
            (channelMembers wsState "lobby").map
              (fun x => (x, SPayload.userSpeaking "a" true (-20))))) ∧
    "a" ∈ roomKeys wsState "lobby" ∧
    mget? [("b", (⟨"bob", false, 0⟩ : User))] "a" = none ∧
    onSpeaking staleState "a" true (-20) = some (staleState, []) :=
  ⟨((speaking_relay wsState "a" true (-20) "lobby"
      [("a", ⟨"alice", false, 0⟩), ("b", ⟨"bob", false, 0⟩)]
      (by decide) (by decide)).1 ⟨"alice", false, 0⟩ (by decide)).1,
   ((speaking_relay wsState "a" true (-20) "lobby"
      [("a", ⟨"alice", false, 0⟩), ("b", ⟨"bob", false, 0⟩)]
      (by decide) (by decide)).2.2 wsState_reachable).2,
   by decide,
   (speaking_relay staleState "a" true (-20) "lobby" [("b", ⟨"bob", false, 0⟩)]
      (by decide) (by decide)).2.1 (by decide)⟩

theorem filter_pair_map (l : List SocketId) (pl : SPayload) (sid : SocketId) :
    (l.map (fun x => (x, pl))).filter (fun m => m.1 ≠ sid)
      = (l.filter (fun x => x ≠ sid)).map (fun x => (x, pl)) := by
  induction l with
  | nil => rfl
  | cons a rest ih =>
    simp only [List.map_cons, List.filter_cons]
    by_cases ha : a = sid
    · have h1 : ¬(decide ((a, pl).1 ≠ sid) = true) := by simp [ha]
      have h2 : ¬(decide (a ≠ sid) = true) := by simp [ha]
      rw [if_neg h1, if_neg h2, ih]
    · have h1 : decide ((a, pl).1 ≠ sid) = true := by simp [ha]
      have h2 : decide (a ≠ sid) = true := by simp [ha]
      rw [if_pos h1, if_pos h2, List.map_cons, ih]

theorem filter_ne_idem {α : Type} [DecidableEq α] (l : List α) (a : α) :
    (l.filter (fun x => x ≠ a)).filter (fun x => x ≠ a)
      = l.filter (fun x => x ≠ a) := by
  induction l with
  | nil => rfl
  | cons b rest ih =>
    simp only [List.filter_cons]
    by_cases hb : b = a
    · have h2 : ¬(decide (b ≠ a) = true) := by simp [hb]
      rw [if_neg h2, ih]
    · have h2 : decide (b ≠ a) = true := by simp [hb]
      rw [if_pos h2, List.filter_cons, if_pos h2, ih]

/-- Claim C4: for a connection bound to a room, an abrupt disconnect leaves
the registry (room membership, room deletion when empty) and the binding
table exactly as an explicit `leave room` would, and delivers exactly the
same messages to every connection other than the departing one (which, being
disconnected, can no longer receive the direct `room left` reply or the
`update rooms` broadcast). -/
theorem disconnect_convergence (st : ServerState) (sid : SocketId)
    (room : RoomName) (hb : mget? st.currentRoomOf sid = some room) :
    (onDisconnect st sid).1.rooms = (onLeaveRoom st sid).1.rooms ∧
    (onDisconnect st sid).1.currentRoomOf = (onLeaveRoom st sid).1.currentRoomOf ∧
    (onDisconnect st sid).2 = (onLeaveRoom st sid).2.filter (fun m => m.1 ≠ sid) := by
  have hD := onDisconnect_eq st sid
  rw [hb] at hD
  have hL : onLeaveRoom st sid
      = ({ (leaveRoom st sid room).1 with
           currentRoomOf := mdel (leaveRoom st sid room).1.currentRoomOf sid },
         (leaveRoom st sid room).2 ++ [(sid, SPayload.roomLeft)]) := by
    unfold onLeaveRoom
    rw [hb]
  have hbX : mget? (dropSocket st sid).rooms room = mget? st.rooms room := rfl
  have hMemX : channelMembers (socketLeave (dropSocket st sid) sid room) room
      = channelMembers (socketLeave st sid room) room := by
    rw [socketLeave_members_self, socketLeave_members_self, dropSocket_members,
      filter_ne_idem]
  rw [hD, hL]
  refine ⟨?_, ?_, ?_⟩
  · -- registry
    show (leaveRoom (dropSocket st sid) sid room).1.rooms
        = (leaveRoom st sid room).1.rooms
    cases hr : mget? st.rooms room with
    | none =>
      rw [(leaveRoom_rooms_none sid (hbX.trans hr)).1, (leaveRoom_rooms_none sid hr).1]
      rfl
    | some users =>
      cases he : (mdel users sid).isEmpty with
      | true =>
        rw [(leaveRoom_rooms_del (hbX.trans hr) he).1, (leaveRoom_rooms_del hr he).1]
        rfl
      | false =>
        rw [(leaveRoom_rooms_set (hbX.trans hr) he).1, (leaveRoom_rooms_set hr he).1]
        rfl
  · -- bindings
    show mdel (leaveRoom (dropSocket st sid) sid room).1.currentRoomOf sid
        = mdel (leaveRoom st sid room).1.currentRoomOf sid
    rw [leaveRoom_bound, leaveRoom_bound]
    rfl
  · -- messages to everyone else
    show (leaveRoom (dropSocket st sid) sid room).2
        = ((leaveRoom st sid room).2 ++ [(sid, SPayload.roomLeft)]).filter
            (fun m => m.1 ≠ sid)
    rw [List.filter_append]
    have hroomLeft : ([(sid, SPayload.roomLeft)] : List Msg).filter
        (fun m => m.1 ≠ sid) = [] := by simp
    rw [hroomLeft, List.append_nil]
    cases hr : mget? st.rooms room with
    | none =>
      rw [(leaveRoom_rooms_none sid (hbX.trans hr)).2, (leaveRoom_rooms_none sid hr).2]
      rfl
    | some users =>
      cases he : (mdel users sid).isEmpty with
      | true =>
        rw [(leaveRoom_rooms_del (hbX.trans hr) he).2, (leaveRoom_rooms_del hr he).2]
        rw [List.filter_append, filter_pair_map, hMemX]
        have hfm : (channelMembers (socketLeave st sid room) room).filter
            (fun x => x ≠ sid) = channelMembers (socketLeave st sid room) room := by
          rw [socketLeave_members_self, filter_ne_idem]
        rw [hfm]
        have hconn : (dropSocket st sid).connected
            = st.connected.filter (fun x => x ≠ sid) := rfl
        rw [hconn, filter_pair_map]
        rfl
      | false =>
        rw [(leaveRoom_rooms_set (hbX.trans hr) he).2, (leaveRoom_rooms_set hr he).2]
        rw [filter_pair_map, hMemX]
        rw [socketLeave_members_self, filter_ne_idem]

theorem disconnect_convergence_witness :
    ((onDisconnect wsState "b").1.rooms = (onLeaveRoom wsState "b").1.rooms ∧
     (onDisconnect wsState "b").1.currentRoomOf
       = (onLeaveRoom wsState "b").1.currentRoomOf ∧
     (onDisconnect wsState "b").2
       = (onLeaveRoom wsState "b").2.filter (fun m => m.1 ≠ "b")) ∧
    mget? wsState.currentRoomOf "b" = some "lobby" :=
  ⟨disconnect_convergence wsState "b" "lobby" (by decide), by decide⟩

/-- Claim C5 counterexample: the server emits `user joined` with
`io.to(room)` after `socket.join(room)`, so the joiner itself receives the
`user joined` event — it is not restricted to the room's other members.
Here a freshly connected socket `a` joins `lobby` and receives its own
`user joined`. -/
theorem join_fanout_counterexample :
    ("a", SPayload.userJoined "a" "alice") ∈
      (onJoinRoom ⟨[], [], [], ["a"]⟩ "a" "lobby" "alice").2 := by
  decide

/-- Claim C5 (amended): on every join, `user joined` is broadcast to every
member of the new room including the joiner and to no one outside that
room; the participant snapshot and the assigned identity go only to the
joiner (and do reach it); the updated global room-name list is broadcast
to every connected client. -/
theorem join_fanout {st : ServerState} (h : Reachable st) (sid : SocketId)
    (room : RoomName) (username : String) {st' : ServerState} {msgs : List Msg}
    (hs : step st (SEvent.joinRm sid room username) = some (st', msgs)) :
    (∀ x ∈ roomKeys st' room, (x, SPayload.userJoined sid username) ∈ msgs) ∧
    (∀ m ∈ msgs, (∃ i u, m.2 = SPayload.userJoined i u) →
      m.1 ∈ roomKeys st' room) ∧
    sid ∈ roomKeys st' room ∧
    (∃ users, mget? st'.rooms room = some users ∧
      (sid, SPayload.roomUsers users) ∈ msgs) ∧
    (∀ m ∈ msgs, (∃ users, m.2 = SPayload.roomUsers users) → m.1 = sid) ∧
    (sid, SPayload.yourId sid) ∈ msgs ∧
    (∀ m ∈ msgs, (∃ i, m.2 = SPayload.yourId i) → m.1 = sid) ∧
    (∀ x ∈ st.connected, (x, SPayload.updateRooms (mkeys st'.rooms)) ∈ msgs) := by
  have hI := reachable_inv h
  have hI' : Inv st' := inv_step hI hs
  simp only [step] at hs
  by_cases hc : sid ∈ st.connected
  swap
  · rw [if_neg hc] at hs
    cases hs
  rw [if_pos hc] at hs
  have h1 := Option.some.inj hs
  obtain ⟨stL, msgs0, hst', hmsgs, hconn0, h0⟩ :
      ∃ stL msgs0, st' = (joinRoom stL sid room username).1 ∧
        msgs = msgs0 ++ (joinRoom stL sid room username).2 ∧
        stL.connected = st.connected ∧
        (∀ m ∈ msgs0, (∃ i, m.2 = SPayload.userLeft i) ∨
          (∃ ns, m.2 = SPayload.updateRooms ns)) := by
    unfold onJoinRoom at h1
    cases hb : mget? st.currentRoomOf sid with
    | none =>
      simp only [hb] at h1
      have hm2 : msgs = (joinRoom st sid room username).2 :=
        (congrArg Prod.snd h1).symm
      refine ⟨st, [], (congrArg Prod.fst h1).symm, by rw [hm2, List.nil_append], rfl, by simp⟩
    | some old =>
      simp only [hb] at h1
      have hm2 : msgs = (leaveRoom st sid old).2
          ++ (joinRoom (leaveRoom st sid old).1 sid room username).2 :=
        (congrArg Prod.snd h1).symm
      refine ⟨(leaveRoom st sid old).1, (leaveRoom st sid old).2,
        (congrArg Prod.fst h1).symm, hm2, leaveRoom_conn st sid old, ?_⟩
      intro m hm
      cases hr : mget? st.rooms old with
      | none =>
        rw [(leaveRoom_rooms_none sid hr).2] at hm
        cases hm
      | some users =>
        cases he : (mdel users sid).isEmpty with
        | true =>
          rw [(leaveRoom_rooms_del hr he).2] at hm
          rcases List.mem_append.mp hm with h2 | h2
          · rcases List.mem_map.mp h2 with ⟨y, _, hy⟩
            exact Or.inl ⟨sid, by rw [← hy]⟩
          · rcases List.mem_map.mp h2 with ⟨y, _, hy⟩
            exact Or.inr ⟨_, by rw [← hy]⟩
        | false =>
          rw [(leaveRoom_rooms_set hr he).2] at hm
          rcases List.mem_map.mp hm with ⟨y, _, hy⟩
          exact Or.inl ⟨sid, by rw [← hy]⟩
  have hjmsgs := joinRoom_msgs stL sid room username
  -- the `user joined` recipients and the new room's members coincide
  have hmem : channelMembers st' room
      = channelMembers (socketJoin stL sid room) room := by
    rw [hst', joinRoom_members, if_pos rfl, socketJoin_members_self]
  have hbound' : mget? st'.currentRoomOf sid = some room := by
    rw [hst', joinRoom_bound, mget?_mset_self]
  have hroomUsers : mget? st'.rooms room
      = some (mset ((mget? stL.rooms room).getD []) sid ⟨username, false, 0⟩) := by
    rw [hst', joinRoom_rooms, mget?_mset_self]
  refine ⟨?_, ?_, hI'.boundMemGet hbound', ?_, ?_, ?_, ?_, ?_⟩
  · -- user joined reaches every member of the new room
    intro x hx
    have hx2 : x ∈ channelMembers st' room := (hI'.chanEq room x).mpr hx
    rw [hmem] at hx2
    rw [hmsgs]
    apply List.mem_append_right
    rw [hjmsgs]
    apply List.mem_append_left
    apply List.mem_append_left
    apply List.mem_append_left
    exact List.mem_map_of_mem _ hx2
  · -- user joined goes only to members of the new room
    intro m hm hpay
    rcases hpay with ⟨i, u, hpay⟩
    rw [hmsgs] at hm
    rcases List.mem_append.mp hm with hm | hm
    · rcases h0 m hm with ⟨i2, hp2⟩ | ⟨ns, hp2⟩ <;> rw [hp2] at hpay <;> cases hpay
    · rw [hjmsgs] at hm
      rcases List.mem_append.mp hm with hm | hm
      · rcases List.mem_append.mp hm with hm | hm
        · rcases List.mem_append.mp hm with hm | hm
          · rcases List.mem_map.mp hm with ⟨y, hy0, hy⟩
            have hm1 : m.1 = y := by rw [← hy]
            rw [hm1]
            apply (hI'.chanEq room y).mp
            rw [hmem]
            exact hy0
          · rw [List.mem_singleton.mp hm] at hpay
            cases hpay
        · rcases List.mem_map.mp hm with ⟨y, _, hy⟩
          rw [← hy] at hpay
          cases hpay
      · rw [List.mem_singleton.mp hm] at hpay
        cases hpay
  · -- the joiner receives the snapshot
    refine ⟨_, hroomUsers, ?_⟩
    rw [hmsgs]
    apply List.mem_append_right
    rw [hjmsgs]
    apply List.mem_append_left
    apply List.mem_append_left
    apply List.mem_append_right
    exact List.mem_singleton.mpr rfl
  · -- the snapshot goes only to the joiner
    intro m hm hpay
    rcases hpay with ⟨users, hpay⟩
    rw [hmsgs] at hm
    rcases List.mem_append.mp hm with hm | hm
    · rcases h0 m hm with ⟨i, hp2⟩ | ⟨ns, hp2⟩ <;> rw [hp2] at hpay <;> cases hpay
    · rw [hjmsgs] at hm
      rcases List.mem_append.mp hm with hm | hm
      · rcases List.mem_append.mp hm with hm | hm
        · rcases List.mem_append.mp hm with hm | hm
          · rcases List.mem_map.mp hm with ⟨y, _, hy⟩
            rw [← hy] at hpay
            cases hpay
          · rw [List.mem_singleton.mp hm]
        · rcases List.mem_map.mp hm with ⟨y, _, hy⟩
          rw [← hy] at hpay
          cases hpay
      · rw [List.mem_singleton.mp hm] at hpay
        cases hpay
  · -- the joiner receives its identity
    rw [hmsgs]
    apply List.mem_append_right
    rw [hjmsgs]
    apply List.mem_append_right
    exact List.mem_singleton.mpr rfl
  · -- the identity goes only to the joiner
    intro m hm hpay
    rcases hpay with ⟨id0, hpay⟩
    rw [hmsgs] at hm
    rcases List.mem_append.mp hm with hm | hm
    · rcases h0 m hm with ⟨i, hp2⟩ | ⟨ns, hp2⟩ <;> rw [hp2] at hpay <;> cases hpay
    · rw [hjmsgs] at hm
      rcases List.mem_append.mp hm with hm | hm
      · rcases List.mem_append.mp hm with hm | hm
        · rcases List.mem_append.mp hm with hm | hm
          · rcases List.mem_map.mp hm with ⟨y, _, hy⟩
            rw [← hy] at hpay
            cases hpay
          · rw [List.mem_singleton.mp hm]
        · rcases List.mem_map.mp hm with ⟨y, _, hy⟩
          rw [← hy] at hpay
          cases hpay
      · rw [List.mem_singleton.mp hm]
  · -- the room list reaches every connected client
    intro x hx
    rw [hmsgs]
    apply List.mem_append_right
    rw [hjmsgs]
    apply List.mem_append_left
    apply List.mem_append_right
    have hpl : mkeys st'.rooms
        = mkeys (mset stL.rooms room
            (mset ((mget? stL.rooms room).getD []) sid ⟨username, false, 0⟩)) := by
      rw [hst', joinRoom_rooms]
    rw [hpl]
    rw [← hconn0] at hx
    exact List.mem_map_of_mem _ hx

/-- The concrete state reached when a lone connection `a` joins `lobby`. -/
def joinedState : ServerState :=
  ⟨[("lobby", [("a", ⟨"alice", false, 0⟩)])], [("lobby", ["a"])],
   [("a", "lobby")], ["a"]⟩

/-- The messages that join emits in the `joinedState` scenario. -/
def joinedMsgs : List Msg :=
  [("a", .userJoined "a" "alice"),
   ("a", .roomUsers [("a", ⟨"alice", false, 0⟩)]),
   ("a", .updateRooms ["lobby"]),
   ("a", .yourId "a")]

theorem join_fanout_witness :
    (∀ x ∈ roomKeys joinedState "lobby",
      (x, SPayload.userJoined "a" "alice") ∈ joinedMsgs) ∧
    (∀ m ∈ joinedMsgs, (∃ i u, m.2 = SPayload.userJoined i u) →
      m.1 ∈ roomKeys joinedState "lobby") ∧
    "a" ∈ roomKeys joinedState "lobby" ∧
    (∃ users, mget? joinedState.rooms "lobby" = some users ∧
      ("a", SPayload.roomUsers users) ∈ joinedMsgs) ∧
    (∀ m ∈ joinedMsgs, (∃ users, m.2 = SPayload.roomUsers users) → m.1 = "a") ∧
    ("a", SPayload.yourId "a") ∈ joinedMsgs ∧
    (∀ m ∈ joinedMsgs, (∃ i, m.2 = SPayload.yourId i) → m.1 = "a") ∧
    (∀ x ∈ (ServerState.mk [] [] [] ["a"]).connected,
      (x, SPayload.updateRooms (mkeys joinedState.rooms)) ∈ joinedMsgs) :=
  join_fanout (@reachable_of_run [SEvent.connect "a"] ⟨[], [], [], ["a"]⟩ (by decide))
    "a" "lobby" "alice"
    (show step ⟨[], [], [], ["a"]⟩ (SEvent.joinRm "a" "lobby" "alice")
        = some (joinedState, joinedMsgs) by decide)

theorem JsNum.not_gtn_of_lt {a b : JsNum} (h : a.lt b) : ¬a.gtn b := by
  cases a <;> cases b <;> unfold JsNum.gtn JsNum.lt at * <;> try exact fun hh => hh
  · exact fun hh => h
  · intro hh
    exact absurd h (not_lt.mpr (le_of_lt hh))

/-- Claim C3: VAD hysteresis.  Above the threshold the detector records the
detection time and classifies speaking; below it, it still classifies
speaking inside the padding window, and not speaking outside it.  In
particular, readings above, below, below at `t0`, `t0+50`, `t0+350` with
the 300 ms padding classify as speaking, speaking, not speaking. -/
theorem vad_hysteresis (st : VadState) (e : JsNum) (now : ℤ)
    (E0 E1 E2 : JsNum) (t0 : ℤ) (st0 : VadState)
    (h0 : E0.gtn ENERGY_THRESHOLD) (h1 : E1.lt ENERGY_THRESHOLD)
    (h2 : E2.lt ENERGY_THRESHOLD) :
    (e.gtn ENERGY_THRESHOLD →
      detectVoiceActivity st e now = (true, ⟨now⟩)) ∧
    (¬e.gtn ENERGY_THRESHOLD → now - st.lastVoiceDetectTime < SPEECH_PADDING →
      detectVoiceActivity st e now = (true, st)) ∧
    (¬e.gtn ENERGY_THRESHOLD → ¬(now - st.lastVoiceDetectTime < SPEECH_PADDING) →
      detectVoiceActivity st e now = (false, st)) ∧
    ((detectVoiceActivity st0 E0 t0).1 = true ∧
     (detectVoiceActivity (detectVoiceActivity st0 E0 t0).2 E1 (t0 + 50)).1 = true ∧
     (detectVoiceActivity
        (detectVoiceActivity (detectVoiceActivity st0 E0 t0).2 E1 (t0 + 50)).2
        E2 (t0 + 350)).1 = false) := by
  have hgen1 : ∀ (s : VadState) (en : JsNum) (t : ℤ), en.gtn ENERGY_THRESHOLD →
      detectVoiceActivity s en t = (true, ⟨t⟩) := by
    intro s en t hg
    unfold detectVoiceActivity
    rw [if_pos hg]
  have hgen2 : ∀ (s : VadState) (en : JsNum) (t : ℤ), ¬en.gtn ENERGY_THRESHOLD →
      t - s.lastVoiceDetectTime < SPEECH_PADDING →
      detectVoiceActivity s en t = (true, s) := by
    intro s en t hg hp
    unfold detectVoiceActivity
    rw [if_neg hg, if_pos hp]
  have hgen3 : ∀ (s : VadState) (en : JsNum) (t : ℤ), ¬en.gtn ENERGY_THRESHOLD →
      ¬(t - s.lastVoiceDetectTime < SPEECH_PADDING) →
      detectVoiceActivity s en t = (false, s) := by
    intro s en t hg hp
    unfold detectVoiceActivity
    rw [if_neg hg, if_neg hp]
  have s1 := hgen1 st0 E0 t0 h0
  have s2 : detectVoiceActivity (⟨t0⟩ : VadState) E1 (t0 + 50) = (true, ⟨t0⟩) := by
    apply hgen2
    · exact JsNum.not_gtn_of_lt h1
    · show t0 + 50 - t0 < SPEECH_PADDING
      unfold SPEECH_PADDING
      omega
  have s3 : detectVoiceActivity (⟨t0⟩ : VadState) E2 (t0 + 350) = (false, ⟨t0⟩) := by
    apply hgen3
    · exact JsNum.not_gtn_of_lt h2
    · show ¬(t0 + 350 - t0 < SPEECH_PADDING)
      unfold SPEECH_PADDING
      omega
  refine ⟨hgen1 st e now, hgen2 st e now, hgen3 st e now, ?_⟩
  rw [s1]
  simp only
  rw [s2]
  simp only
  rw [s3]
  simp

theorem vad_hysteresis_witness :
    (JsNum.fin (-20)).gtn ENERGY_THRESHOLD ∧
    (JsNum.fin (-50)).lt ENERGY_THRESHOLD ∧
    (((JsNum.fin 0).gtn ENERGY_THRESHOLD →
      detectVoiceActivity ⟨0⟩ (JsNum.fin 0) 5 = (true, ⟨5⟩)) ∧
    (¬(JsNum.fin 0).gtn ENERGY_THRESHOLD →
      (5 : ℤ) - (⟨0⟩ : VadState).lastVoiceDetectTime < SPEECH_PADDING →
      detectVoiceActivity ⟨0⟩ (JsNum.fin 0) 5 = (true, ⟨0⟩)) ∧
    (¬(JsNum.fin 0).gtn ENERGY_THRESHOLD →
      ¬((5 : ℤ) - (⟨0⟩ : VadState).lastVoiceDetectTime < SPEECH_PADDING) →
      detectVoiceActivity ⟨0⟩ (JsNum.fin 0) 5 = (false, ⟨0⟩)) ∧
    ((detectVoiceActivity ⟨0⟩ (JsNum.fin (-20)) 1000).1 = true ∧
     (detectVoiceActivity (detectVoiceActivity ⟨0⟩ (JsNum.fin (-20)) 1000).2
        (JsNum.fin (-50)) (1000 + 50)).1 = true ∧
     (detectVoiceActivity
        (detectVoiceActivity (detectVoiceActivity ⟨0⟩ (JsNum.fin (-20)) 1000).2
          (JsNum.fin (-50)) (1000 + 50)).2
        (JsNum.fin (-50)) (1000 + 350)).1 = false)) := by
  have hgt : (JsNum.fin (-20)).gtn ENERGY_THRESHOLD := by
    show ((-45 : ℝ) < -20)
    norm_num
  have hlt : (JsNum.fin (-50)).lt ENERGY_THRESHOLD := by
    show ((-50 : ℝ) < -45)
    norm_num
  exact ⟨hgt, hlt,
    vad_hysteresis ⟨0⟩ (JsNum.fin 0) 5 (JsNum.fin (-20)) (JsNum.fin (-50))
      (JsNum.fin (-50)) 1000 ⟨0⟩ hgt hlt hlt⟩

/-- Claim C6: the energy meter is a pure function returning `20·log10` of
the root-mean-square of the block — a uniform positive block of amplitude
`a` yields `20·log10 a` — and an all-zero block yields the IEEE floor
`-Infinity`, never NaN or undefined. -/
theorem calculateEnergy_contract (a : ℝ) (n : ℕ) (ha : 0 < a) (hn : 0 < n) :
    calculateEnergy (List.replicate n a) = JsNum.fin (20 * Real.logb 10 a) ∧
    calculateEnergy (List.replicate n 0) = JsNum.negInf := by
  have hn0 : ((n : ℕ) : ℝ) ≠ 0 := Nat.cast_ne_zero.mpr hn.ne'
  constructor
  · unfold calculateEnergy
    simp only [List.map_replicate, List.sum_replicate, List.length_replicate]
    have h2 : ((n • (a * a) : ℝ)) / (n : ℝ) = a * a := by
      rw [nsmul_eq_mul]
      field_simp
    rw [h2, Real.sqrt_mul_self ha.le, if_neg (ne_of_gt ha)]
  · unfold calculateEnergy
    simp [List.map_replicate, List.sum_replicate]

theorem calculateEnergy_contract_witness :
    calculateEnergy (List.replicate 2 1) = JsNum.fin (20 * Real.logb 10 1) ∧
    calculateEnergy (List.replicate 2 0) = JsNum.negInf :=
  calculateEnergy_contract 1 2 (by norm_num) (by norm_num)

/-- Claim C7: with identity assigned and capture enabled, `processAudio`
transmits the raw block iff the block classifies as speaking, and emits
the speaking-state notification — carrying the new boolean and the current
energy — iff the classification changed since the previous block,
independent of whether the block was transmitted. -/
theorem processAudio_contract (st : ClientState) (block : List ℝ) (now : ℤ)
    (uid : String) (hv : st.vadEnabled = true) (hu : st.currentUserId = some uid) :
    (CEmit.voiceOut block ∈ (processAudio st block now).2 ↔
      (detectVoiceActivity ⟨st.lastVoiceDetectTime⟩ (calculateEnergy block) now).1
        = true) ∧
    (CEmit.speakingOut
        (detectVoiceActivity ⟨st.lastVoiceDetectTime⟩ (calculateEnergy block) now).1
        (calculateEnergy block) ∈ (processAudio st block now).2 ↔
      (detectVoiceActivity ⟨st.lastVoiceDetectTime⟩ (calculateEnergy block) now).1
        ≠ st.isCurrentlySpeaking) ∧
    (processAudio st block now).1.isCurrentlySpeaking
      = (detectVoiceActivity ⟨st.lastVoiceDetectTime⟩ (calculateEnergy block) now).1 := by
  unfold processAudio
  simp only [hu, hv]
  cases hS : (detectVoiceActivity ⟨st.lastVoiceDetectTime⟩ (calculateEnergy block) now).1 <;>
    cases hC : st.isCurrentlySpeaking <;>
      simp [hS, hC]

theorem processAudio_contract_witness :
    ((CEmit.voiceOut [1] ∈
        (processAudio ⟨some "u", true, 0, false, none, [], false, none, [], []⟩ [1] 0).2 ↔
      (detectVoiceActivity ⟨(0 : ℤ)⟩ (calculateEnergy [1]) 0).1 = true) ∧
    (CEmit.speakingOut (detectVoiceActivity ⟨(0 : ℤ)⟩ (calculateEnergy [1]) 0).1
        (calculateEnergy [1]) ∈
        (processAudio ⟨some "u", true, 0, false, none, [], false, none, [], []⟩ [1] 0).2 ↔
      (detectVoiceActivity ⟨(0 : ℤ)⟩ (calculateEnergy [1]) 0).1 ≠ false) ∧
    (processAudio ⟨some "u", true, 0, false, none, [], false, none, [], []⟩ [1] 0).1.isCurrentlySpeaking
      = (detectVoiceActivity ⟨(0 : ℤ)⟩ (calculateEnergy [1]) 0).1) :=
  processAudio_contract ⟨some "u", true, 0, false, none, [], false, none, [], []⟩
    [1] 0 "u" rfl rfl

/-- The playback-queue invariant: the accepted arrivals are exactly the
completed blocks, then the one currently playing, then the queue — and the
is-playing flag tracks whether a source is playing. -/
def PbInv (st : ClientState) : Prop :=
  st.arrived = st.played ++ st.nowPlaying.toList ++ st.audioQueue ∧
  st.isPlaying = st.nowPlaying.isSome

theorem clientOnVoice_eq (st : ClientState) (id : String) (data : List Int) :
    clientOnVoice st id data =
      if st.audioContext = some AcState.running then
        (if st.isPlaying then
          { st with
            audioQueue := st.audioQueue ++ [⟨id, data⟩],
            arrived := st.arrived ++ [⟨id, data⟩] }
         else playNextAudio { st with
            audioQueue := st.audioQueue ++ [⟨id, data⟩],
            arrived := st.arrived ++ [⟨id, data⟩] })
      else st := by
  unfold clientOnVoice
  by_cases hctx : st.audioContext = some AcState.running
  · rw [if_pos hctx]
  · rw [if_neg hctx]

theorem playNextAudio_pbinv {st : ClientState}
    (h1 : st.arrived = st.played ++ st.nowPlaying.toList ++ st.audioQueue)
    (h2 : st.nowPlaying = none) : PbInv (playNextAudio st) := by
  unfold playNextAudio PbInv
  cases hq : st.audioQueue with
  | nil =>
    rw [hq] at h1
    refine ⟨?_, ?_⟩ <;> simp [h1, h2]
  | cons a rest =>
    rw [hq, h2] at h1
    refine ⟨?_, ?_⟩ <;> simp [h1, h2]

theorem pbStep_pbinv {st st' : ClientState} {e : PbEvent} (h : PbInv st)
    (hs : pbStep st e = some st') : PbInv st' := by
  cases e with
  | arrive id data =>
    simp only [pbStep] at hs
    have hst : st' = clientOnVoice st id data := (Option.some.inj hs).symm
    rw [hst, clientOnVoice_eq]
    by_cases hctx : st.audioContext = some AcState.running
    swap
    · rw [if_neg hctx]
      exact h
    rw [if_pos hctx]
    rcases h with ⟨h1, h2⟩
    have hmid : PbInv { st with
        audioQueue := st.audioQueue ++ [(⟨id, data⟩ : VoiceMsg)],
        arrived := st.arrived ++ [(⟨id, data⟩ : VoiceMsg)] } := by
      constructor
      · show st.arrived ++ [(⟨id, data⟩ : VoiceMsg)]
          = st.played ++ st.nowPlaying.toList ++ (st.audioQueue ++ [(⟨id, data⟩ : VoiceMsg)])
        rw [h1]
        simp
      · exact h2
    by_cases hp : st.isPlaying = true
    · rw [if_pos hp]
      exact hmid
    · rw [if_neg hp]
      have hp2 : st.isPlaying = false := Bool.eq_false_iff.mpr hp
      have hnone : st.nowPlaying = none := by
        cases hnp : st.nowPlaying
        · rfl
        · rw [hnp] at h2
          rw [h2] at hp2
          cases hp2
      exact playNextAudio_pbinv hmid.1 hnone
  | ended =>
    simp only [pbStep] at hs
    unfold onEnded at hs
    cases hnp : st.nowPlaying with
    | none =>
      rw [hnp] at hs
      cases hs
    | some a =>
      rw [hnp] at hs
      have hst : st' = playNextAudio { st with
          nowPlaying := none,
          played := st.played ++ [a] } := (Option.some.inj hs).symm
      rw [hst]
      rcases h with ⟨h1, h2⟩
      apply playNextAudio_pbinv
      · show st.arrived = (st.played ++ [a]) ++ (none : Option VoiceMsg).toList
            ++ st.audioQueue
        rw [h1, hnp]
        simp
      · rfl

theorem pbRun_pbinv {evs : List PbEvent} :
    ∀ {st st' : ClientState}, PbInv st → pbRun st evs = some st' → PbInv st' := by
  induction evs with
  | nil =>
    intro st st' h hr
    unfold pbRun at hr
    rw [← Option.some.inj hr]
    exact h
  | cons e rest ih =>
    intro st st' h hr
    unfold pbRun at hr
    cases hs : pbStep st e with
    | none => rw [hs] at hr; cases hr
    | some st1 =>
      rw [hs] at hr
      exact ih (pbStep_pbinv h hs) hr

/-- Claim C9: playback queue discipline.  Along every sequence of received
voice events and playback completions: the accepted blocks are exactly the
completed blocks, then the at-most-one block currently playing, then the
queued blocks, in arrival order (so no block is dropped, none is played out
of order, and at most one plays at a time); the single is-playing flag
tracks the playing source; and an arrival that finds the flag set never
(re)starts playback — it only appends to the queue. -/
theorem playback_discipline (ac : Option AcState) (evs : List PbEvent)
    (st : ClientState)
    (hrun : pbRun { clientInit with audioContext := ac } evs = some st) :
    st.arrived = st.played ++ st.nowPlaying.toList ++ st.audioQueue ∧
    st.isPlaying = st.nowPlaying.isSome ∧
    (st.isPlaying = true → ∀ id data,
      (clientOnVoice st id data).nowPlaying = st.nowPlaying ∧
      (clientOnVoice st id data).played = st.played ∧
      (clientOnVoice st id data).isPlaying = true) := by
  have hinit : PbInv { clientInit with audioContext := ac } := ⟨rfl, rfl⟩
  have hinv := pbRun_pbinv hinit hrun
  refine ⟨hinv.1, hinv.2, ?_⟩
  intro hp id data
  unfold clientOnVoice
  by_cases hctx : st.audioContext = some AcState.running
  · rw [if_pos hctx, if_pos hp]
    exact ⟨rfl, rfl, hp⟩
  · rw [if_neg hctx]
    exact ⟨rfl, rfl, hp⟩

theorem playback_discipline_witness :
    ((pbRun { clientInit with audioContext := some AcState.running }
        [PbEvent.arrive "p" [1], PbEvent.arrive "q" [2], PbEvent.ended]).getD clientInit).arrived
      = ((pbRun { clientInit with audioContext := some AcState.running }
          [PbEvent.arrive "p" [1], PbEvent.arrive "q" [2], PbEvent.ended]).getD clientInit).played
        ++ ((pbRun { clientInit with audioContext := some AcState.running }
          [PbEvent.arrive "p" [1], PbEvent.arrive "q" [2], PbEvent.ended]).getD clientInit).nowPlaying.toList
        ++ ((pbRun { clientInit with audioContext := some AcState.running }
          [PbEvent.arrive "p" [1], PbEvent.arrive "q" [2], PbEvent.ended]).getD clientInit).audioQueue := by
  have h := playback_discipline (some AcState.running)
    [PbEvent.arrive "p" [1], PbEvent.arrive "q" [2], PbEvent.ended]
    ((pbRun { clientInit with audioContext := some AcState.running }
      [PbEvent.arrive "p" [1], PbEvent.arrive "q" [2], PbEvent.ended]).getD clientInit)
    (by decide)
  exact h.1

/-- Claim C10 counterexample: on a fresh client (identity assigned, no
audio context yet), a failed microphone acquisition leaves the state
unchanged — and a subsequently received voice event from a peer is
discarded: nothing is queued and nothing is played, so the client is not
usable for listening. -/
theorem media_failure_counterexample :
    (startVoiceChat { clientInit with currentUserId := some "u" }
        (Except.error "Permission denied")).1
      = { clientInit with currentUserId := some "u" } ∧
    "Error starting voice chat: Permission denied"
      ∈ (startVoiceChat { clientInit with currentUserId := some "u" }
          (Except.error "Permission denied")).2 ∧
    clientOnVoice { clientInit with currentUserId := some "u" } "p" [1, 2]
      = { clientInit with currentUserId := some "u" } ∧
    ({ clientInit with currentUserId := some "u" } : ClientState).audioQueue = [] ∧
    ({ clientInit with currentUserId := some "u" } : ClientState).played = [] := by
  refine ⟨by decide, by decide, by decide, rfl, rfl⟩

/-- Claim C10 (amended): if microphone acquisition fails, the failure
description is surfaced via the debug sink, no state changes (capture does
not start) and no exception escapes; however, received voice events are
played back only when a running audio context exists from an earlier
successful start — with no running context they are ignored, not played. -/
theorem media_failure_containment (st : ClientState) (msg : String)
    (uid : String) (hu : st.currentUserId = some uid) :
    (startVoiceChat st (Except.error msg)).1 = st ∧
    ("Error starting voice chat: " ++ msg)
      ∈ (startVoiceChat st (Except.error msg)).2 ∧
    (∀ id data, st.audioContext ≠ some AcState.running →
      clientOnVoice st id data = st) := by
  unfold startVoiceChat
  rw [hu]
  refine ⟨rfl, by simp, ?_⟩
  intro id data hctx
  unfold clientOnVoice
  rw [if_neg hctx]

theorem media_failure_containment_witness :
    (startVoiceChat { clientInit with currentUserId := some "u" }
        (Except.error "denied")).1 = { clientInit with currentUserId := some "u" } ∧
    ("Error starting voice chat: " ++ "denied")
      ∈ (startVoiceChat { clientInit with currentUserId := some "u" }
          (Except.error "denied")).2 ∧
    (∀ id data,
      ({ clientInit with currentUserId := some "u" } : ClientState).audioContext
        ≠ some AcState.running →
      clientOnVoice { clientInit with currentUserId := some "u" } id data
        = { clientInit with currentUserId := some "u" }) :=
  media_failure_containment { clientInit with currentUserId := some "u" }
    "denied" "u" rfl

end VoiceChat
